import Mathlib

/-!
Verification of the Rex engine of cesar-lang (`src/rex.rs`): the Rex AST,
the FIT (fat-into-thin) transformation, `fit_clone` normalization, `with_more`
construction, and the compiler `get_compiled_content`.

Rust `usize` indices are modelled as `Nat` (no arithmetic here can overflow in
practice, and the values are small tree indices).  A Rust function that can
panic is modelled as returning `Option`, with `none` for the panic.
-/

set_option maxRecDepth 10000

deriving instance DecidableEq for Except

namespace Cesar

/-- Modelled from the spec: `BinOp` (crate root, not under `src/`) is the
binary-operator tag; the fat-arrow members and `Add` are the ones `rex.rs`
uses. -/
inductive BinOp where
  | Add
  | ThinTx
  | ThinRx
  | FatTx
  | FatRx
  | FatDx
deriving DecidableEq

/-- Modelled from the spec: a `Polynomial` (crate `polynomial` module, not
under `src/`) is a formal sum of monomials, each monomial a list of node
names (spec sect. 3 and 4.1). -/
structure Polynomial where
  monomials : List (List String)
deriving DecidableEq

/-- Modelled from the spec: `+=` "merges monomials" (spec sect. 4.1) — the
second operand's monomials not already present are appended. -/
def Polynomial.add (a b : Polynomial) : Polynomial :=
  ⟨a.monomials ++ b.monomials.filter (fun m => decide (m ∉ a.monomials))⟩

/-- Modelled from the spec: `flattened_clone()` yields a polynomial whose
single monomial is the union of all node names (spec sect. 4.1). -/
def Polynomial.flattened_clone (p : Polynomial) : Polynomial :=
  ⟨[p.monomials.flatten.dedup]⟩

/-- Modelled from the spec: a `NodeList` is an ordered sequence of distinct
nodes (spec sect. 3). -/
structure NodeList where
  nodes : List String
deriving DecidableEq

/-- Modelled from the spec: merging node lists (`add_assign` on `NodeList`,
used by FIT phase 3) — nodes of the second not already present are appended. -/
def NodeList.add (a b : NodeList) : NodeList :=
  ⟨a.nodes ++ b.nodes.filter (fun n => decide (n ∉ a.nodes))⟩

/-- `CesName` from `src/ces.rs`: a newtype over a string. -/
structure CesName where
  name : String
deriving DecidableEq

/-- `CesInstance` from `src/ces.rs`: an instance invocation `{ name, args }`. -/
structure CesInstance where
  name : CesName
  args : List String
deriving DecidableEq

/-- `ThinArrowRule` from `src/rex.rs`: `{ nodes, cause, effect }`. -/
structure ThinArrowRule where
  nodes  : NodeList
  cause  : Polynomial
  effect : Polynomial
deriving DecidableEq

/-- `ThinArrowRule::new()` — all fields default (empty). -/
def ThinArrowRule.new : ThinArrowRule :=
  ⟨⟨[]⟩, ⟨[]⟩, ⟨[]⟩⟩

/-- `ThinArrowRule::with_nodes` (fallible: `NotANodeList` when the polynomial
is not a single monomial of distinct nodes; spec sect. 4.1).  `none` models
the error. -/
def ThinArrowRule.with_nodes (tar : ThinArrowRule) (p : Polynomial) : Option ThinArrowRule :=
  match p.monomials with
  | [m] => if m.Nodup then some { tar with nodes := ⟨m⟩ } else none
  | _ => none

/-- `ThinArrowRule::with_cause`. -/
def ThinArrowRule.with_cause (tar : ThinArrowRule) (p : Polynomial) : ThinArrowRule :=
  { tar with cause := p }

/-- `ThinArrowRule::with_effect`. -/
def ThinArrowRule.with_effect (tar : ThinArrowRule) (p : Polynomial) : ThinArrowRule :=
  { tar with effect := p }

/-- `FatArrow` from `src/rex.rs`: one `{ cause, effect }` part of a FAR. -/
structure FatArrow where
  cause  : Polynomial
  effect : Polynomial
deriving DecidableEq

/-- `FatArrowRule` from `src/rex.rs`: a list of `FatArrow` parts. -/
structure FatArrowRule where
  parts : List FatArrow
deriving DecidableEq

/-- `FatArrowRule::from_parts` (rex.rs lines 389-412).  `none` models the
`assert!` on an empty tail and the `panic!` on a non-fat operator. -/
def FatArrowRule.from_parts (head : Polynomial) (tail : List (BinOp × Polynomial)) :
    Option FatArrowRule :=
  if tail = [] then none
  else
    (tail.foldl
      (fun acc p =>
        acc.bind fun fp =>
          match p.1 with
          | .FatTx => some ({ parts := fp.1.parts ++ [⟨fp.2, p.2⟩] }, p.2)
          | .FatRx => some ({ parts := fp.1.parts ++ [⟨p.2, fp.2⟩] }, p.2)
          | .FatDx => some ({ parts := fp.1.parts ++ [⟨fp.2, p.2⟩, ⟨p.2, fp.2⟩] }, p.2)
          | _ => none)
      (some (⟨[]⟩, head))).map Prod.fst

/-- `RexTree` from `src/rex.rs`: children of a Sum/Product node, by absolute
index into the enclosing `kinds` slab. -/
structure RexTree where
  ids : List Nat
deriving DecidableEq

/-- `RexKind` from `src/rex.rs`: the tagged union of Rex node kinds. -/
inductive RexKind where
  | Thin (tar : ThinArrowRule)
  | Fat (far : FatArrowRule)
  | Instance (inst : CesInstance)
  | Product (tree : RexTree)
  | Sum (tree : RexTree)
deriving DecidableEq

/-- `Rex` from `src/rex.rs`: a flat slab of kinds; `kinds[0]` is the root. -/
structure Rex where
  kinds : List RexKind
deriving DecidableEq

/-- Whether a kind is a `Fat` node. -/
def RexKind.isFat : RexKind → Bool
  | .Fat _ => true
  | _ => false

/-- The child list of a Sum/Product kind, `none` for other kinds. -/
def RexKind.kindTree : RexKind → Option (List Nat)
  | .Product t => some t.ids
  | .Sum t => some t.ids
  | _ => none

/-! ## The FIT transformation (`From<&FatArrowRule> for Vec<ThinArrowRule>`,
rex.rs lines 422-545) -/

/-- Models the `.with_nodes(...).unwrap()` calls of FIT phase 1: the `none`
branch (the unwrap panic) is unreachable because `flattened_clone` always
yields a single monomial of distinct nodes. -/
def tarWithNodesUnwrap (p : Polynomial) : ThinArrowRule :=
  match ThinArrowRule.new.with_nodes p with
  | some tar => tar
  | none => ThinArrowRule.new

/-- FIT phase 1 (rex.rs lines 436-449): split each part into an effect-only
`tx` rule and a cause-only `rx` rule. -/
def phase1 (parts : List FatArrow) : List ThinArrowRule × List ThinArrowRule :=
  (parts.map fun part =>
      (tarWithNodesUnwrap part.cause.flattened_clone).with_effect part.effect,
   parts.map fun part =>
      (tarWithNodesUnwrap part.effect.flattened_clone).with_cause part.cause)

/-- One step of a FIT merge pass: fold `t` into the first element of `acc`
matched by `eq` (updating it with `upd`), `none` when no element matches. -/
def mergeInto (eq : ThinArrowRule → ThinArrowRule → Bool)
    (upd : ThinArrowRule → ThinArrowRule → ThinArrowRule) :
    List ThinArrowRule → ThinArrowRule → Option (List ThinArrowRule)
  | [], _ => none
  | a :: rest, t =>
    if eq a t then some (upd a t :: rest)
    else (mergeInto eq upd rest t).map (a :: ·)

/-- A FIT merge pass (phases 2 and 3, rex.rs lines 458-515): fold each rule
into the accumulator, flagging whether any merge happened. -/
def mergePass (eq : ThinArrowRule → ThinArrowRule → Bool)
    (upd : ThinArrowRule → ThinArrowRule → ThinArrowRule)
    (acc : List ThinArrowRule) (flag : Bool) :
    List ThinArrowRule → List ThinArrowRule × Bool
  | [] => (acc, flag)
  | t :: ts =>
    match mergeInto eq upd acc t with
    | some acc' => mergePass eq upd acc' true ts
    | none => mergePass eq upd (acc ++ [t]) flag ts

/-- Phase 2 on `tx` rules: merge by equal node lists, summing effects. -/
def phase2Tx (l : List ThinArrowRule) : List ThinArrowRule × Bool :=
  mergePass (fun a t => decide (a.nodes = t.nodes))
    (fun a t => { a with effect := a.effect.add t.effect }) [] false l

/-- Phase 2 on `rx` rules: merge by equal node lists, summing causes. -/
def phase2Rx (l : List ThinArrowRule) : List ThinArrowRule × Bool :=
  mergePass (fun a t => decide (a.nodes = t.nodes))
    (fun a t => { a with cause := a.cause.add t.cause }) [] false l

/-- Phase 3 on `tx` rules: merge by equal effect polynomial, merging nodes. -/
def phase3Tx (l : List ThinArrowRule) : List ThinArrowRule × Bool :=
  mergePass (fun a t => decide (a.effect = t.effect))
    (fun a t => { a with nodes := a.nodes.add t.nodes }) [] false l

/-- Phase 3 on `rx` rules: merge by equal cause polynomial, merging nodes. -/
def phase3Rx (l : List ThinArrowRule) : List ThinArrowRule × Bool :=
  mergePass (fun a t => decide (a.cause = t.cause))
    (fun a t => { a with nodes := a.nodes.add t.nodes }) [] false l

/-- The fixed-point loop over phases 2 and 3 (rex.rs lines 451-528).  Fuel
recursion: every non-fixpoint iteration strictly shrinks the total number of
rules, so `fitLoop` is always called with enough fuel to reach the fixpoint
(initial total + 1). -/
def fitLoop : Nat → List ThinArrowRule → List ThinArrowRule →
    List ThinArrowRule × List ThinArrowRule
  | 0, tx, rx => (tx, rx)
  | fuel + 1, tx, rx =>
    let p2t := phase2Tx tx
    let p2r := phase2Rx rx
    let p3t := phase3Tx p2t.1
    let p3r := phase3Rx p2r.1
    if p2t.2 || p2r.2 || p3t.2 || p3r.2 then fitLoop fuel p3t.1 p3r.1
    else (p3t.1, p3r.1)

/-- Phase 4 helper: move `r`'s cause into the first `tx` rule with the same
node list, `none` when there is none. -/
def pairInto : List ThinArrowRule → ThinArrowRule → Option (List ThinArrowRule)
  | [], _ => none
  | t :: rest, r =>
    if t.nodes = r.nodes then some ({ t with cause := r.cause } :: rest)
    else (pairInto rest r).map (t :: ·)

/-- FIT phase 4 (rex.rs lines 533-541): pair each `rx` rule with a `tx` rule
of the same node list, else append it. -/
def phase4 (txs : List ThinArrowRule) : List ThinArrowRule → List ThinArrowRule
  | [] => txs
  | r :: rs =>
    match pairInto txs r with
    | some txs' => phase4 txs' rs
    | none => phase4 (txs ++ [r]) rs

/-- The full FIT transformation `Vec::<ThinArrowRule>::from(&FatArrowRule)`. -/
def farToTars (far : FatArrowRule) : List ThinArrowRule :=
  let p1 := phase1 far.parts
  let lp := fitLoop (p1.1.length + p1.2.length + 1) p1.1 p1.2
  phase4 lp.1 lp.2

/-! ## `Rex::fit_clone` (rex.rs lines 114-157) -/

/-- First pass of `fit_clone`: copy kinds, expanding each `Fat` into a `Sum`
placeholder (child ids all `0`) followed by the FIT rules, and record the
old-index-to-new-index map. -/
def pass1Go (new_kinds : List RexKind) (id_map : List Nat) :
    List RexKind → List RexKind × List Nat
  | [] => (new_kinds, id_map)
  | k :: ks =>
    let id_map := id_map ++ [new_kinds.length]
    match k with
    | .Fat far =>
      let tars := farToTars far
      pass1Go
        (new_kinds ++ (RexKind.Sum ⟨List.replicate tars.length 0⟩ :: tars.map RexKind.Thin))
        id_map ks
    | k => pass1Go (new_kinds ++ [k]) id_map ks

/-- Rewrite ids of one pre-existing tree through the index map; `none` models
the `assert!(*id > 0)` failure and the out-of-bounds indexing panic. -/
def mapIds (id_map : List Nat) : List Nat → Option (List Nat)
  | [] => some []
  | id :: rest =>
    if 0 < id then
      match id_map.get? id with
      | some v => (mapIds id_map rest).map (v :: ·)
      | none => none
    else none

/-- Rewrite one tree in the second pass of `fit_clone` (rex.rs lines 132-154):
a tree whose first id is positive is a pre-existing tree remapped through
`id_map`; a tree of all zeros is a `Fat`-expansion placeholder filled with the
consecutive indices after its node; an empty tree is the `panic!()`. -/
def rewriteTree (id_map : List Nat) (ndx : Nat) (ids : List Nat) : Option (List Nat) :=
  match ids with
  | [] => none
  | first :: _ =>
    if 0 < first then mapIds id_map ids
    else if ids.all (· = 0) then some (List.range' (ndx + 1) ids.length)
    else none

/-- Rewrite one kind in the second pass: only Sum/Product trees change. -/
def rewriteKind (id_map : List Nat) (ndx : Nat) : RexKind → Option RexKind
  | .Product t => (rewriteTree id_map ndx t.ids).map fun ids => .Product ⟨ids⟩
  | .Sum t => (rewriteTree id_map ndx t.ids).map fun ids => .Sum ⟨ids⟩
  | k => some k

/-- Second pass of `fit_clone`: rewrite every tree, tracking the node index. -/
def pass2Go (id_map : List Nat) (ndx : Nat) : List RexKind → Option (List RexKind)
  | [] => some []
  | k :: ks =>
    match rewriteKind id_map ndx k with
    | some k' => (pass2Go id_map (ndx + 1) ks).map (k' :: ·)
    | none => none

/-- `Rex::fit_clone` (rex.rs lines 114-157); `none` models a panic. -/
def Rex.fit_clone (r : Rex) : Option Rex :=
  let p1 := pass1Go [] [] r.kinds
  (pass2Go p1.2 0 p1.1).map Rex.mk

/-! ## `Rex::with_more` (rex.rs lines 25-109) -/

/-- Shift the child ids of a Sum/Product kind by `offset` (the closure inside
`append_with_offset`, rex.rs lines 289-295). -/
def shiftKind (offset : Nat) : RexKind → RexKind
  | .Product t => .Product ⟨t.ids.map (· + offset)⟩
  | .Sum t => .Sum ⟨t.ids.map (· + offset)⟩
  | k => k

/-- `append_with_offset` (rex.rs lines 285-299): append `source`'s kinds with
their internal tree ids shifted by `offset`; returns the new kinds and
`offset + source.len()`. -/
def append_with_offset (kinds source : List RexKind) (offset : Nat) :
    List RexKind × Nat :=
  (kinds ++ source.map (shiftKind offset), offset + source.length)

/-- The loop of the `Sum` branch of `with_more` (rex.rs lines 69-107),
including the trailing flush and root fill.  The `is_followed_by_product`
lookahead of the source's iterator is the `op`-is-`None` test on the next
element.  `none` models the panics (flush on a non-`Product` anchor, a binary
operator other than `Add`, an out-of-bounds index). -/
def withMoreGo (kinds : List RexKind) (sum_ids product_ids : List Nat)
    (anchor offset : Nat) : List (Option BinOp × Rex) → Option Rex
  | [] =>
    let flushed : Option (List RexKind) :=
      if product_ids = [] then some kinds
      else if anchor < kinds.length then
        some (kinds.set anchor (.Product ⟨product_ids⟩))
      else none
    flushed.map fun kinds =>
      ⟨kinds.set 0 (.Sum ⟨sum_ids ++ [anchor]⟩)⟩
  | (op, rex) :: rest =>
    let is_followed : Bool :=
      match rest.head? with
      | some e => e.1.isNone
      | none => false
    match op with
    | some .Add =>
      let flushed : Option (List RexKind × List Nat) :=
        if product_ids = [] then some (kinds, product_ids)
        else
          match kinds.get? anchor with
          | some (.Product t) =>
            some (kinds.set anchor (.Product ⟨t.ids ++ product_ids⟩), [])
          | _ => none
      match flushed with
      | none => none
      | some kp =>
        let kinds := kp.1
        let product_ids := kp.2
        let sum_ids := sum_ids ++ [anchor]
        let anchor := offset
        let step :=
          if is_followed then
            (kinds ++ [RexKind.Product ⟨[]⟩], offset + 1, product_ids ++ [offset + 1])
          else (kinds, offset, product_ids)
        let ap := append_with_offset step.1 rex.kinds step.2.1
        withMoreGo ap.1 sum_ids step.2.2 anchor ap.2 rest
    | some _ => none
    | none =>
      let product_ids := product_ids ++ [offset]
      let ap := append_with_offset kinds rex.kinds offset
      withMoreGo ap.1 sum_ids product_ids anchor ap.2 rest

/-- The loop of the all-product (`plusless`) branch of `with_more`
(rex.rs lines 38-41): push each suffix rex's root offset and append its
kinds. -/
def withMoreProductGo (kinds : List RexKind) (ids : List Nat) (offset : Nat) :
    List (Option BinOp × Rex) → List RexKind × List Nat
  | [] => (kinds, ids)
  | e :: rest =>
    let ids := ids ++ [offset]
    let ap := append_with_offset kinds e.2.kinds offset
    withMoreProductGo ap.1 ids ap.2 rest

/-- `Rex::with_more` (rex.rs lines 25-109).  `none` models a panic. -/
def Rex.with_more (self : Rex) (rexlist : List (Option BinOp × Rex)) : Option Rex :=
  if rexlist = [] then some self
  else if rexlist.all (fun e => e.1.isNone) then
    -- all product: a single `Product` root over `self` and the suffix rexes
    let start := append_with_offset [RexKind.Product ⟨[]⟩] self.kinds 1
    let acc := withMoreProductGo start.1 [1] start.2 rexlist
    some ⟨acc.1.set 0 (.Product ⟨acc.2⟩)⟩
  else
    let is_followed0 : Bool :=
      match rexlist.head? with
      | some e => e.1.isNone
      | none => false
    let start :=
      if is_followed0 then
        ([RexKind.Sum ⟨[]⟩, RexKind.Product ⟨[]⟩], 2, [2])
      else ([RexKind.Sum ⟨[]⟩], 1, ([] : List Nat))
    let ap := append_with_offset start.1 self.kinds start.2.1
    withMoreGo ap.1 [] start.2.2 1 ap.2 rexlist

/-! ## Context and content (the external aces interface, spec sect. 6) -/

/-- Modelled from the spec: `PartialContent` is provided by the external aces
backend (spec sect. 6); only its interface is specified.  It accumulates
cause and effect bindings per node id. -/
structure PartialContent where
  causes  : List (Nat × List (List Nat))
  effects : List (Nat × List (List Nat))
deriving DecidableEq

/-- Modelled from the spec: the context handle (spec sect. 6) interns node
names (index into `names` is the node id) and stores compiled content
bindings by name. -/
structure Context where
  names : List String
  contents : List (String × PartialContent)
deriving DecidableEq

/-- Modelled from the spec: `PartialContent::new(ctx)` — a fresh empty
content. -/
def PartialContent.new (_ctx : Context) : PartialContent :=
  ⟨[], []⟩

/-- Modelled from the spec: `add_to_causes(node_id, monomials)`. -/
def PartialContent.add_to_causes (c : PartialContent) (id : Nat)
    (ms : List (List Nat)) : PartialContent :=
  { c with causes := c.causes ++ [(id, ms)] }

/-- Modelled from the spec: `add_to_effects(node_id, monomials)`. -/
def PartialContent.add_to_effects (c : PartialContent) (id : Nat)
    (ms : List (List Nat)) : PartialContent :=
  { c with effects := c.effects ++ [(id, ms)] }

/-- Modelled from the spec: the backend's `+=` on content.  Its semantics is
backend-defined (spec sect. 6); modelled as accumulation of both operands'
bindings.  No claim below depends on this choice. -/
def PartialContent.madd (a b : PartialContent) : PartialContent :=
  ⟨a.causes ++ b.causes, a.effects ++ b.effects⟩

/-- Modelled from the spec: the backend's `*=` on content; backend-defined
(spec sect. 6), modelled like `madd` with the operands' bindings kept.  No
claim below depends on this choice. -/
def PartialContent.mmul (a b : PartialContent) : PartialContent :=
  ⟨a.causes ++ b.causes, a.effects ++ b.effects⟩

/-- Modelled from the spec: `share_node_name` interns a name, returning its
stable id and the (possibly grown) context. -/
def Context.share_node_name (ctx : Context) (n : String) : Nat × Context :=
  match ctx.names.findIdx? (· = n) with
  | some i => (i, ctx)
  | none => (ctx.names.length, { ctx with names := ctx.names ++ [n] })

/-- Modelled from the spec: `get_content(name)`. -/
def Context.get_content (ctx : Context) (n : String) : Option PartialContent :=
  (ctx.contents.find? (fun e => e.1 = n)).map Prod.snd

/-- Modelled from the spec: `has_content(name)`. -/
def Context.has_content (ctx : Context) (n : String) : Bool :=
  (ctx.get_content n).isSome

/-- Modelled from the spec: compiling one monomial interns each name in
order, threading the context. -/
def internMonomial (ctx : Context) (m : List String) : List Nat × Context :=
  m.foldl
    (fun acc s =>
      let r := acc.2.share_node_name s
      (acc.1 ++ [r.1], r.2))
    ([], ctx)

/-- Modelled from the spec: `compile_as_vec` lowers a polynomial to a vector
of node-id monomials, interning names via the context (spec sect. 4.2). -/
def Polynomial.compile_as_vec (p : Polynomial) (ctx : Context) :
    List (List Nat) × Context :=
  p.monomials.foldl
    (fun acc m =>
      let r := internMonomial acc.2 m
      (acc.1 ++ [r.1], r.2))
    ([], ctx)

/-- `AscesisError` variants surfaced by the compiler (crate root; the
variants and their trigger sites are those of rex.rs lines 175-251). -/
inductive AscesisError where
  | InvalidAST
  | FatLeak
  | UnexpectedDependency (name : String)
deriving DecidableEq

/-- `ThinArrowRule::get_compiled_content` (rex.rs lines 333-375): compile the
cause and effect polynomials, then attach them to each interned node. -/
def ThinArrowRule.get_compiled_content (tar : ThinArrowRule) (ctx : Context) :
    PartialContent × Context :=
  let content := PartialContent.new ctx
  let c := tar.cause.compile_as_vec ctx
  let e := tar.effect.compile_as_vec c.2
  tar.nodes.nodes.foldl
    (fun acc node =>
      let r := acc.2.share_node_name node
      let content := acc.1
      let content := if c.1 ≠ [] then content.add_to_causes r.1 c.1 else content
      let content := if e.1 ≠ [] then content.add_to_effects r.1 e.1 else content
      (content, r.2))
    (content, e.2)

/-- `Rex::check_dependencies` (rex.rs lines 161-173): the first `Instance`
name with no content in the context, `none` when all resolve. -/
def Rex.check_dependencies (r : Rex) (ctx : Context) : Option String :=
  r.kinds.findSome? fun k =>
    match k with
    | .Instance inst => if ctx.has_content inst.name.name then none else some inst.name.name
    | _ => none

/-- The forward scan of `get_compiled_content` (rex.rs lines 182-201) over
one node's children: record the parent position of each child `i > pos`, a
child `i ≤ pos` is `InvalidAST`, and a child beyond the slab is the Rust
out-of-bounds panic (`none`). -/
def setParents (parents : List Nat) (pos : Nat) :
    List Nat → Option (Except AscesisError (List Nat))
  | [] => some (.ok parents)
  | i :: is =>
    if pos < i then
      if i < parents.length then setParents (parents.set i pos) pos is
      else none
    else some (.error .InvalidAST)

/-- The forward scan of `get_compiled_content` (rex.rs lines 182-201):
allocate a fresh content slot for each Sum/Product node and fill the parent
map from its children. -/
def buildParents (ctx : Context) (pos : Nat)
    (merged : List (Option PartialContent)) (parents : List Nat) :
    List RexKind → Option (Except AscesisError (List (Option PartialContent) × List Nat))
  | [] => some (.ok (merged, parents))
  | .Product t :: ks | .Sum t :: ks =>
    match setParents parents pos t.ids with
    | none => none
    | some (.error e) => some (.error e)
    | some (.ok parents) =>
      buildParents ctx (pos + 1) (merged.set pos (some (PartialContent.new ctx))) parents ks
  | _ :: ks => buildParents ctx (pos + 1) merged parents ks

/-- One node's content in the backward fold of `get_compiled_content`
(the `let content = match &rex.kinds[pos] {...}` of rex.rs lines 204-227):
a `Thin` rule compiles, a `Fat` kind is the `FatLeak` error, an `Instance`
fetches the context binding, a Sum/Product takes its pre-merged slot. -/
def compileStep (merged : List (Option PartialContent)) (ctx : Context) (pos : Nat) :
    RexKind → Except AscesisError (PartialContent × List (Option PartialContent) × Context)
  | .Thin tar =>
    let r := tar.get_compiled_content ctx
    .ok (r.1, merged, r.2)
  | .Fat _ => .error .FatLeak
  | .Instance inst =>
    match ctx.get_content inst.name.name with
    | some c => .ok (c, merged, ctx)
    | none => .error (.UnexpectedDependency inst.name.name)
  | .Product _ | .Sum _ =>
    match merged.get? pos with
    | some (some c) => .ok (c, merged.set pos none, ctx)
    | _ => .error .InvalidAST

/-- The backward fold of `get_compiled_content` (rex.rs lines 203-248),
from position `pos` down to `0`: compute each node's content with
`compileStep`; at a non-root position fold it into the parent's slot (`*=`
under a `Product` parent, `+=` under a `Sum`) and continue downward, at the
root return it.  `none` models a panic (an index out of bounds). -/
def compileDown (kinds : List RexKind) (parents : List Nat) :
    Nat → List (Option PartialContent) → Context →
    Option (Except AscesisError (PartialContent × Context))
  | 0, merged, ctx =>
    match kinds.get? 0 with
    | none => none
    | some k =>
      match compileStep merged ctx 0 k with
      | .error e => some (.error e)
      | .ok r => some (.ok (r.1, r.2.2))
  | p + 1, merged, ctx =>
    match kinds.get? (p + 1) with
    | none => none
    | some k =>
      match compileStep merged ctx (p + 1) k with
      | .error e => some (.error e)
      | .ok r =>
        match parents.get? (p + 1) with
        | none => none
        | some parent =>
          match r.2.1.get? parent with
          | some (some pc) =>
            match kinds.get? parent with
            | some (.Product _) =>
              compileDown kinds parents p (r.2.1.set parent (some (pc.mmul r.1))) r.2.2
            | some (.Sum _) =>
              compileDown kinds parents p (r.2.1.set parent (some (pc.madd r.1))) r.2.2
            | some _ => some (.error .InvalidAST)
            | none => none
          | some none => some (.error .InvalidAST)
          | none => none

/-- `Rex::get_compiled_content` (rex.rs lines 175-251): normalize with
`fit_clone`, build the parent map, then fold bottom-up.  `none` models a
panic; the threaded context is returned with the content (interning mutates
the shared context). -/
def Rex.get_compiled_content (r : Rex) (ctx : Context) :
    Option (Except AscesisError (PartialContent × Context)) :=
  match r.fit_clone with
  | none => none
  | some rex =>
    if rex.kinds = [] then some (.ok (PartialContent.new ctx, ctx))
    else
      match buildParents ctx 0 (List.replicate rex.kinds.length none)
          (List.replicate rex.kinds.length 0) rex.kinds with
      | none => none
      | some (.error e) => some (.error e)
      | some (.ok mp) =>
        compileDown rex.kinds mp.2 (rex.kinds.length - 1) mp.1 ctx

/-! ## Structural predicates on a kinds slab -/

/-- The child list of the node at position `p`, when that node is a Sum or a
Product. -/
def treeAt (ks : List RexKind) (p : Nat) : Option (List Nat) :=
  (ks.get? p).bind RexKind.kindTree

/-- No `Fat` kind anywhere in the slab. -/
def noFatB (ks : List RexKind) : Bool :=
  ks.all fun k => !k.isFat

/-- Every Sum/Product child id is strictly greater than its owner's index and
strictly less than the slab length (spec sect. 3 structural invariants). -/
def treesBoundB (ks : List RexKind) : Bool :=
  (List.range ks.length).all fun p =>
    match treeAt ks p with
    | some ids => ids.all fun id => decide (p < id) && decide (id < ks.length)
    | none => true

/-- No Sum/Product node has exactly one child. -/
def noSingleB (ks : List RexKind) : Bool :=
  ks.all fun k =>
    match k.kindTree with
    | some ids => decide (ids.length ≠ 1)
    | none => true

/-- Every Sum/Product child id is strictly positive. -/
def allPosB (ks : List RexKind) : Bool :=
  ks.all fun k =>
    match k.kindTree with
    | some ids => ids.all fun id => decide (0 < id)
    | none => true

/-- Every Sum/Product node has a non-empty child list whose ids are all below
the slab length. -/
def safeTreesB (ks : List RexKind) : Bool :=
  ks.all fun k =>
    match k.kindTree with
    | some ids => !ids.isEmpty && ids.all fun id => decide (id < ks.length)
    | none => true

/-- Every `Fat` node has a non-empty parts list. -/
def fatPartsOkB (ks : List RexKind) : Bool :=
  ks.all fun k =>
    match k with
    | .Fat far => !far.parts.isEmpty
    | _ => true

/-- Some Sum/Product node has an empty child list. -/
def hasEmptyTreeB (ks : List RexKind) : Bool :=
  ks.any fun k => decide (k.kindTree = some [])

/-- The compile result is not the `FatLeak` error. -/
def notFatLeakB : Option (Except AscesisError (PartialContent × Context)) → Bool
  | some (.error .FatLeak) => false
  | _ => true

/-! ## Characterization of the first pass of `fit_clone` -/

/-- What one old kind contributes to the first pass's output. -/
def expandKind : RexKind → List RexKind
  | .Fat far =>
    .Sum ⟨List.replicate (farToTars far).length 0⟩ :: (farToTars far).map .Thin
  | k => [k]

/-- The old-to-new index map the first pass builds, starting at new
position `b`. -/
def idMapOf (b : Nat) : List RexKind → List Nat
  | [] => []
  | k :: ks => b :: idMapOf (b + (expandKind k).length) ks

/-! ## Prop forms of the structural predicates -/

/-- Prop form of `noFatB`. -/
def NoFatP (ks : List RexKind) : Prop := ∀ k ∈ ks, k.isFat = false

/-- Prop form of `allPosB`. -/
def AllPosP (ks : List RexKind) : Prop :=
  ∀ k ∈ ks, ∀ ids, k.kindTree = some ids → ∀ id ∈ ids, 0 < id

/-- Prop form of `treesBoundB`. -/
def TreesBoundP (ks : List RexKind) : Prop :=
  ∀ p ids, treeAt ks p = some ids → ∀ id ∈ ids, p < id ∧ id < ks.length

/-- Prop form of `noSingleB`. -/
def NoSingleP (ks : List RexKind) : Prop :=
  ∀ k ∈ ks, ∀ ids, k.kindTree = some ids → ids.length ≠ 1

/-- The `with_more` construction invariant carried through the loop of the
`Sum` branch (rex.rs lines 69-99). -/
structure WMInv (kinds : List RexKind) (sum_ids product_ids : List Nat)
    (anchor offset : Nat) (rest : List (Option BinOp × Rex)) : Prop where
  hoff : offset = kinds.length
  hanch1 : 1 ≤ anchor
  hanch2 : anchor < kinds.length
  hk0 : kinds.get? 0 = some (.Sum ⟨[]⟩)
  htree : ∀ p ids, treeAt kinds p = some ids → p ≠ 0 →
    (product_ids ≠ [] → p ≠ anchor) →
    ids.length ≠ 1 ∧ ∀ id ∈ ids, p < id ∧ id < kinds.length
  hpa : product_ids ≠ [] → kinds.get? anchor = some (.Product ⟨[]⟩)
  hpi : ∀ id ∈ product_ids, anchor < id ∧ id < kinds.length
  hpl : product_ids.length ≠ 1 ∨ (∃ e, rest.head? = some e ∧ e.1 = none)
  hsi : ∀ id ∈ sum_ids, 0 < id ∧ id < kinds.length
  hsl : sum_ids ≠ [] ∨ ∃ e ∈ rest, e.1.isSome
  hhd : product_ids = [] → ∀ e, rest.head? = some e → e.1.isSome = true
  hrest : ∀ e ∈ rest, TreesBoundP e.2.kinds ∧ NoSingleP e.2.kinds ∧ e.2.kinds ≠ []

/-- A Rex slab is well formed when its trees respect the child-index bounds,
no Sum/Product node has exactly one child, and the slab is non-empty — the
shape every parser- or builder-produced Rex has (spec sect. 3). -/
def wellFormedB (r : Rex) : Bool :=
  treesBoundB r.kinds && noSingleB r.kinds && !r.kinds.isEmpty

/-- The slab contains a `Fat` kind. -/
def hasFatB (ks : List RexKind) : Bool :=
  ks.any RexKind.isFat

/-- The compile result is a success. -/
def isOkResult : Option (Except AscesisError (PartialContent × Context)) → Bool
  | some (.ok _) => true
  | _ => false

/-! ## Lemmas -/

theorem expandKind_length_pos (k : RexKind) : 0 < (expandKind k).length := by
  cases k <;> simp [expandKind]

theorem expandKind_not_fat (k : RexKind) : ∀ k' ∈ expandKind k, k'.isFat = false := by
  cases k with
  | Fat far =>
    intro k' hk'
    simp only [expandKind, List.mem_cons, List.mem_map] at hk'
    rcases hk' with h | ⟨t, _, h⟩ <;> subst h <;> rfl
  | Thin tar => intro k' hk'; simp [expandKind] at hk'; subst hk'; rfl
  | Instance i => intro k' hk'; simp [expandKind] at hk'; subst hk'; rfl
  | Product t => intro k' hk'; simp [expandKind] at hk'; subst hk'; rfl
  | Sum t => intro k' hk'; simp [expandKind] at hk'; subst hk'; rfl

theorem pass1Go_eq (ks : List RexKind) :
    ∀ nk im, pass1Go nk im ks = (nk ++ ks.flatMap expandKind, im ++ idMapOf nk.length ks) := by
  induction ks with
  | nil => intro nk im; simp [pass1Go, idMapOf]
  | cons k ks ih =>
    intro nk im
    cases k <;>
      simp [pass1Go, idMapOf, expandKind, ih, List.append_assoc, List.length_append]

theorem fit_clone_eq (r : Rex) :
    r.fit_clone =
      (pass2Go (idMapOf 0 r.kinds) 0 (r.kinds.flatMap expandKind)).map Rex.mk := by
  have h := pass1Go_eq r.kinds [] []
  simp [Rex.fit_clone, h]

theorem idMapOf_length (ks : List RexKind) : ∀ b, (idMapOf b ks).length = ks.length := by
  induction ks with
  | nil => intro b; simp [idMapOf]
  | cons k ks ih => intro b; simp [idMapOf, ih]

theorem flatMap_expand_length_ge (ks : List RexKind) :
    ks.length ≤ (ks.flatMap expandKind).length := by
  induction ks with
  | nil => simp
  | cons k ks ih =>
    simp only [List.flatMap_cons, List.length_append, List.length_cons]
    have := expandKind_length_pos k
    omega

theorem idMapOf_get? (ks : List RexKind) :
    ∀ b j, j < ks.length →
      (idMapOf b ks).get? j = some (b + ((ks.take j).flatMap expandKind).length) := by
  induction ks with
  | nil => intro b j h; simp at h
  | cons k ks ih =>
    intro b j h
    cases j with
    | zero => simp [idMapOf]
    | succ j =>
      simp only [idMapOf, List.get?_cons_succ, List.take_succ_cons, List.flatMap_cons,
        List.length_append]
      rw [ih]
      · congr 1
        omega
      · simpa using h

theorem idMapOf_get?_le (ks : List RexKind) :
    ∀ b j v, (idMapOf b ks).get? j = some v → b + j ≤ v := by
  intro b j v h
  have hj : j < ks.length := by
    by_contra hc
    rw [List.get?_eq_none.mpr (by rw [idMapOf_length]; omega)] at h
    cases h
  rw [idMapOf_get? ks b j hj] at h
  have := flatMap_expand_length_ge (ks.take j)
  have hlt : (ks.take j).length = j := by
    rw [List.length_take]
    omega
  injection h with h
  omega

theorem idMapOf_mem_lt (ks : List RexKind) :
    ∀ b v, v ∈ idMapOf b ks → v < b + (ks.flatMap expandKind).length := by
  induction ks with
  | nil => intro b v h; simp [idMapOf] at h
  | cons k ks ih =>
    intro b v h
    simp only [idMapOf, List.mem_cons] at h
    simp only [List.flatMap_cons, List.length_append]
    rcases h with h | h
    · have := expandKind_length_pos k
      have := flatMap_expand_length_ge ks
      omega
    · have := ih (b + (expandKind k).length) v h
      omega

theorem idMapOf_mono (ks : List RexKind) :
    ∀ b j j' v v', j < j' → (idMapOf b ks).get? j = some v →
      (idMapOf b ks).get? j' = some v' → v < v' := by
  induction ks with
  | nil => intro b j j' v v' _ hj _; simp [idMapOf] at hj
  | cons k ks ih =>
    intro b j j' v v' hjj hj hj'
    cases j with
    | zero =>
      simp only [idMapOf, List.get?_cons_zero] at hj
      injection hj with hj
      subst hj
      cases j' with
      | zero => omega
      | succ i' =>
        simp only [idMapOf, List.get?_cons_succ] at hj'
        have := idMapOf_get?_le ks (b + (expandKind k).length) i' v' hj'
        have := expandKind_length_pos k
        omega
    | succ i =>
      cases j' with
      | zero => omega
      | succ i' =>
        simp only [idMapOf, List.get?_cons_succ] at hj hj'
        exact ih (b + (expandKind k).length) i i' v v' (by omega) hj hj'

/-! ## Lemmas on the second pass of `fit_clone` -/

theorem mapIds_cons (im : List Nat) (id : Nat) (rest : List Nat) :
    mapIds im (id :: rest) =
      if 0 < id then
        match im.get? id with
        | some v => (mapIds im rest).map (v :: ·)
        | none => none
      else none := rfl

theorem mapIds_forall₂ (im : List Nat) :
    ∀ ids out, mapIds im ids = some out →
      List.Forall₂ (fun j x => 0 < j ∧ im.get? j = some x) ids out := by
  intro ids
  induction ids with
  | nil => intro out h; simp [mapIds] at h; subst h; exact .nil
  | cons id rest ih =>
    intro out h
    rw [mapIds_cons] at h
    split at h
    · rename_i hpos
      cases hv : im.get? id with
      | none => rw [hv] at h; simp at h
      | some v =>
        rw [hv] at h
        cases hrest : mapIds im rest with
        | none => rw [hrest] at h; simp at h
        | some out' =>
          rw [hrest] at h
          simp only [Option.map_some', Option.some.injEq] at h
          subst h
          exact .cons ⟨hpos, hv⟩ (ih out' hrest)
    · cases h

theorem mapIds_length (im : List Nat) (ids out : List Nat) (h : mapIds im ids = some out) :
    out.length = ids.length := by
  exact ((mapIds_forall₂ im ids out h).length_eq).symm

theorem mapIds_ne_nil (im : List Nat) (ids out : List Nat) (h : mapIds im ids = some out)
    (hne : ids ≠ []) : out ≠ [] := by
  intro hc
  subst hc
  have := mapIds_length im ids [] h
  simp at this
  exact hne (List.eq_nil_of_length_eq_zero this.symm)

theorem mapIds_isSome (im : List Nat) :
    ∀ ids, (∀ j ∈ ids, 0 < j ∧ j < im.length) → (mapIds im ids).isSome := by
  intro ids
  induction ids with
  | nil => intro _; simp [mapIds]
  | cons id rest ih =>
    intro h
    have hid := h id (by simp)
    have hv : im.get? id = some (im.get ⟨id, hid.2⟩) := List.get?_eq_get hid.2
    have hrest := ih fun j hj => h j (by simp [hj])
    rw [Option.isSome_iff_exists] at hrest
    rcases hrest with ⟨out', hout'⟩
    rw [mapIds_cons, if_pos hid.1, hv, hout']
    simp

theorem mapIds_id (im : List Nat) :
    ∀ ids, (∀ j ∈ ids, 0 < j ∧ im.get? j = some j) → mapIds im ids = some ids := by
  intro ids
  induction ids with
  | nil => intro _; simp [mapIds]
  | cons id rest ih =>
    intro h
    have hid := h id (by simp)
    have hrest := ih fun j hj => h j (by simp [hj])
    rw [mapIds_cons, if_pos hid.1, hid.2, hrest]
    rfl

theorem pass2Go_nil (im : List Nat) (n : Nat) : pass2Go im n [] = some [] := rfl

theorem pass2Go_cons (im : List Nat) (n : Nat) (k : RexKind) (ks : List RexKind) :
    pass2Go im n (k :: ks) =
      match rewriteKind im n k with
      | some k' => (pass2Go im (n + 1) ks).map (k' :: ·)
      | none => none := rfl

theorem pass2Go_append (im : List Nat) :
    ∀ xs ys n, pass2Go im n (xs ++ ys) =
      (pass2Go im n xs).bind fun o1 =>
        (pass2Go im (n + xs.length) ys).map (o1 ++ ·) := by
  intro xs
  induction xs with
  | nil =>
    intro ys n
    simp [pass2Go_nil]
  | cons x xs ih =>
    intro ys n
    rw [List.cons_append, pass2Go_cons, pass2Go_cons]
    cases rewriteKind im n x with
    | none => rfl
    | some k' =>
      simp only [ih ys (n + 1), List.length_cons]
      cases pass2Go im (n + 1) xs with
      | none => rfl
      | some o1 =>
        simp only [Option.bind_some, Option.map_bind]
        have : n + 1 + xs.length = n + (xs.length + 1) := by omega
        rw [this]
        cases pass2Go im (n + (xs.length + 1)) ys with
        | none => rfl
        | some o2 => simp

theorem pass2Go_length (im : List Nat) :
    ∀ ks n out, pass2Go im n ks = some out → out.length = ks.length := by
  intro ks
  induction ks with
  | nil => intro n out h; simp [pass2Go_nil] at h; subst h; rfl
  | cons k ks ih =>
    intro n out h
    rw [pass2Go_cons] at h
    cases hk : rewriteKind im n k with
    | none => rw [hk] at h; cases h
    | some k' =>
      rw [hk] at h
      cases hrest : pass2Go im (n + 1) ks with
      | none => rw [hrest] at h; cases h
      | some out' =>
        rw [hrest] at h
        simp only [Option.map_some', Option.some.injEq] at h
        subst h
        simp [ih (n + 1) out' hrest]

theorem rewriteKind_not_fat (im : List Nat) (n : Nat) (k k' : RexKind)
    (h : rewriteKind im n k = some k') (hk : k.isFat = false) : k'.isFat = false := by
  cases k with
  | Fat far => simp [RexKind.isFat] at hk
  | Thin tar => simp [rewriteKind] at h; subst h; rfl
  | Instance i => simp [rewriteKind] at h; subst h; rfl
  | Product t =>
    simp only [rewriteKind] at h
    cases hr : rewriteTree im n t.ids with
    | none => rw [hr] at h; cases h
    | some ids => rw [hr] at h; simp at h; subst h; rfl
  | Sum t =>
    simp only [rewriteKind] at h
    cases hr : rewriteTree im n t.ids with
    | none => rw [hr] at h; cases h
    | some ids => rw [hr] at h; simp at h; subst h; rfl

theorem pass2Go_noFat (im : List Nat) :
    ∀ ks n out, pass2Go im n ks = some out → (∀ k ∈ ks, k.isFat = false) →
      ∀ k' ∈ out, k'.isFat = false := by
  intro ks
  induction ks with
  | nil => intro n out h _; simp [pass2Go_nil] at h; subst h; simp
  | cons k ks ih =>
    intro n out h hks
    rw [pass2Go_cons] at h
    cases hk : rewriteKind im n k with
    | none => rw [hk] at h; cases h
    | some k' =>
      rw [hk] at h
      cases hrest : pass2Go im (n + 1) ks with
      | none => rw [hrest] at h; cases h
      | some out' =>
        rw [hrest] at h
        simp only [Option.map_some', Option.some.injEq] at h
        intro kx hkx
        rw [← h] at hkx
        rcases List.mem_cons.mp hkx with hh | hh
        · subst hh
          exact rewriteKind_not_fat im n k kx hk (hks k (by simp))
        · exact ih (n + 1) out' hrest (fun x hx => hks x (by simp [hx])) kx hh

theorem noFatB_iff (ks : List RexKind) : noFatB ks = true ↔ NoFatP ks := by
  simp [noFatB, NoFatP, List.all_eq_true]

theorem allPosB_iff (ks : List RexKind) : allPosB ks = true ↔ AllPosP ks := by
  rw [allPosB, List.all_eq_true]
  constructor
  · intro h k hk ids hids id hid
    have := h k hk
    rw [hids] at this
    simp only [List.all_eq_true, decide_eq_true_eq] at this
    exact this id hid
  · intro h k hk
    cases hids : k.kindTree with
    | none => simp
    | some ids =>
      simp only [List.all_eq_true, decide_eq_true_eq]
      exact h k hk ids hids

theorem noSingleB_iff (ks : List RexKind) : noSingleB ks = true ↔ NoSingleP ks := by
  rw [noSingleB, List.all_eq_true]
  constructor
  · intro h k hk ids hids
    have := h k hk
    rw [hids] at this
    simpa using this
  · intro h k hk
    cases hids : k.kindTree with
    | none => simp
    | some ids => simpa using h k hk ids hids

theorem treeAt_eq_none_of_le (ks : List RexKind) (p : Nat) (h : ks.length ≤ p) :
    treeAt ks p = none := by
  rw [treeAt, List.get?_eq_none.mpr h]
  rfl

theorem treesBoundB_iff (ks : List RexKind) : treesBoundB ks = true ↔ TreesBoundP ks := by
  rw [treesBoundB, List.all_eq_true]
  constructor
  · intro h p ids hids id hid
    have hp : p < ks.length := by
      by_contra hc
      rw [treeAt_eq_none_of_le ks p (by omega)] at hids
      cases hids
    have := h p (List.mem_range.mpr hp)
    rw [hids] at this
    simp only [List.all_eq_true, Bool.and_eq_true, decide_eq_true_eq] at this
    exact this id hid
  · intro h p hp
    cases hids : treeAt ks p with
    | none => simp
    | some ids =>
      simp only [List.all_eq_true, Bool.and_eq_true, decide_eq_true_eq]
      exact fun id hid => h p ids hids id hid

/-! ## treeAt helpers -/

theorem treeAt_cons_zero (k : RexKind) (ks : List RexKind) :
    treeAt (k :: ks) 0 = k.kindTree := rfl

theorem treeAt_cons_succ (k : RexKind) (ks : List RexKind) (q : Nat) :
    treeAt (k :: ks) (q + 1) = treeAt ks q := rfl

theorem treeAt_append (xs ys : List RexKind) (q : Nat) :
    treeAt (xs ++ ys) q =
      if q < xs.length then treeAt xs q else treeAt ys (q - xs.length) := by
  by_cases h : q < xs.length
  · rw [if_pos h, treeAt, treeAt, List.get?_append h]
  · rw [if_neg h, treeAt, treeAt, List.get?_append_right (by omega : xs.length ≤ q)]

theorem treeAt_map_thin (tars : List ThinArrowRule) (q : Nat) :
    treeAt (tars.map RexKind.Thin) q = none := by
  simp only [treeAt, List.get?_map]
  cases tars.get? q <;> simp [RexKind.kindTree]

theorem treeAt_mem (ks : List RexKind) (p : Nat) (ids : List Nat)
    (h : treeAt ks p = some ids) : ∃ k ∈ ks, k.kindTree = some ids := by
  simp only [treeAt] at h
  cases hk : ks.get? p with
  | none => rw [hk] at h; cases h
  | some k =>
    rw [hk] at h
    exact ⟨k, List.get?_mem hk, h⟩

theorem mem_treeAt (ks : List RexKind) (k : RexKind) (hk : k ∈ ks) (ids : List Nat)
    (h : k.kindTree = some ids) : ∃ p, treeAt ks p = some ids := by
  rcases List.get_of_mem hk with ⟨⟨p, hp⟩, rfl⟩
  refine ⟨p, ?_⟩
  show (ks.get? p).bind RexKind.kindTree = some ids
  rw [List.get?_eq_get hp]
  exact h

/-! ## Evaluation lemmas for the second pass on expansion blocks -/

theorem rewriteTree_nil (im : List Nat) (b : Nat) : rewriteTree im b [] = none := rfl

theorem rewriteTree_replicate (im : List Nat) (b m : Nat) (hm : 0 < m) :
    rewriteTree im b (List.replicate m 0) = some (List.range' (b + 1) m) := by
  cases m with
  | zero => omega
  | succ mm =>
    show rewriteTree im b (0 :: List.replicate mm 0) = _
    rw [rewriteTree]
    simp [List.all_eq_true]

theorem rewriteTree_pos (im : List Nat) (b : Nat) (ids : List Nat)
    (hne : ids ≠ []) (hpos : ∀ id ∈ ids, 0 < id) :
    rewriteTree im b ids = mapIds im ids := by
  cases ids with
  | nil => exact absurd rfl hne
  | cons first rest =>
    rw [rewriteTree]
    rw [if_pos (hpos first (by simp))]

theorem pass2Go_thins (im : List Nat) (tars : List ThinArrowRule) :
    ∀ n, pass2Go im n (tars.map RexKind.Thin) = some (tars.map RexKind.Thin) := by
  induction tars with
  | nil => intro n; simp [pass2Go_nil]
  | cons t ts ih =>
    intro n
    rw [List.map_cons, pass2Go_cons]
    show (match (some (RexKind.Thin t) : Option RexKind) with
      | some k' => (pass2Go im (n + 1) (ts.map RexKind.Thin)).map (k' :: ·)
      | none => none) = _
    rw [ih (n + 1)]
    rfl

theorem pass2Go_single (im : List Nat) (n : Nat) (k : RexKind) :
    pass2Go im n [k] = (rewriteKind im n k).map ([·]) := by
  rw [pass2Go_cons]
  cases rewriteKind im n k <;> simp [pass2Go_nil]

/-! ## The id-positivity and bound invariant of `fit_clone` output -/

theorem pass2_blocks_pos_bound :
    ∀ (ks : List RexKind) (b : Nat) (im : List Nat) (N : Nat) (out : List RexKind),
      b + (ks.flatMap expandKind).length ≤ N →
      (∀ v ∈ im, v < N) →
      (∀ j v, im.get? j = some v → j ≠ 0 → 0 < v) →
      AllPosP ks →
      pass2Go im b (ks.flatMap expandKind) = some out →
      ∀ q ids, treeAt out q = some ids →
        ids ≠ [] ∧ ∀ x ∈ ids, 0 < x ∧ x < N := by
  intro ks
  induction ks with
  | nil =>
    intro b im N out _ _ _ _ hp q ids hq
    simp only [List.flatMap_nil, pass2Go_nil, Option.some.injEq] at hp
    subst hp
    rw [treeAt_eq_none_of_le [] q (by simp)] at hq
    cases hq
  | cons k ks ih =>
    intro b im N out hN him_lt him_pos hpos hp q ids hq
    rw [List.flatMap_cons, pass2Go_append im] at hp
    cases h1 : pass2Go im b (expandKind k) with
    | none => rw [h1] at hp; cases hp
    | some o1 =>
      rw [h1] at hp
      cases h2 : pass2Go im (b + (expandKind k).length) (ks.flatMap expandKind) with
      | none => rw [h2] at hp; cases hp
      | some o2 =>
        rw [h2] at hp
        simp at hp
        subst hp
        have ho1len : o1.length = (expandKind k).length := pass2Go_length im _ _ _ h1
        rw [treeAt_append] at hq
        by_cases hqlt : q < o1.length
        · -- inside the block of `k`
          rw [if_pos hqlt] at hq
          cases k with
          | Fat far =>
            -- placeholder `Sum` followed by `Thin` rules
            rw [show expandKind (RexKind.Fat far) =
              RexKind.Sum ⟨List.replicate (farToTars far).length 0⟩ ::
                (farToTars far).map RexKind.Thin from rfl] at h1
            rw [pass2Go_cons] at h1
            cases hm : (farToTars far).length with
            | zero =>
              rw [show rewriteKind im b (RexKind.Sum ⟨List.replicate (farToTars far).length 0⟩) =
                (rewriteTree im b (List.replicate (farToTars far).length 0)).map
                  (fun ids => RexKind.Sum ⟨ids⟩) from rfl, hm] at h1
              simp [rewriteTree_nil] at h1
            | succ mm =>
              rw [show rewriteKind im b (RexKind.Sum ⟨List.replicate (farToTars far).length 0⟩) =
                (rewriteTree im b (List.replicate (farToTars far).length 0)).map
                  (fun ids => RexKind.Sum ⟨ids⟩) from rfl] at h1
              rw [rewriteTree_replicate im b _ (by omega)] at h1
              rw [pass2Go_thins] at h1
              simp only [Option.map_some', Option.bind_some, Option.some.injEq] at h1
              subst h1
              cases q with
              | zero =>
                rw [treeAt_cons_zero] at hq
                simp only [RexKind.kindTree, Option.some.injEq] at hq
                subst hq
                constructor
                · simp [hm]
                · intro x hx
                  rw [List.mem_range'_1] at hx
                  have heL : (expandKind (RexKind.Fat far)).length =
                      1 + (farToTars far).length := by
                    simp only [expandKind, List.length_cons, List.length_map]
                    omega
                  have hsplit : ((RexKind.Fat far :: ks).flatMap expandKind).length =
                      (expandKind (RexKind.Fat far)).length +
                        (ks.flatMap expandKind).length := by
                    simp [List.flatMap_cons]
                  omega
              | succ qq =>
                rw [treeAt_cons_succ, treeAt_map_thin] at hq
                cases hq
          | Thin tar =>
            rw [show expandKind (RexKind.Thin tar) = [RexKind.Thin tar] from rfl,
              pass2Go_single] at h1
            rw [show rewriteKind im b (RexKind.Thin tar) = some (RexKind.Thin tar) from rfl] at h1
            simp only [Option.map_some', Option.some.injEq] at h1
            subst h1
            cases q with
            | zero => rw [treeAt_cons_zero] at hq; cases hq
            | succ qq => exfalso; simp at hqlt
          | Instance inst =>
            rw [show expandKind (RexKind.Instance inst) = [RexKind.Instance inst] from rfl,
              pass2Go_single] at h1
            rw [show rewriteKind im b (RexKind.Instance inst) =
              some (RexKind.Instance inst) from rfl] at h1
            simp only [Option.map_some', Option.some.injEq] at h1
            subst h1
            cases q with
            | zero => rw [treeAt_cons_zero] at hq; cases hq
            | succ qq => exfalso; simp at hqlt
          | Product t =>
            rw [show expandKind (RexKind.Product t) = [RexKind.Product t] from rfl,
              pass2Go_single] at h1
            rw [show rewriteKind im b (RexKind.Product t) =
              (rewriteTree im b t.ids).map (fun ids => RexKind.Product ⟨ids⟩) from rfl] at h1
            have hpt : ∀ id ∈ t.ids, 0 < id :=
              hpos (RexKind.Product t) (by simp) t.ids rfl
            have htne : t.ids ≠ [] := by
              intro hc
              rw [hc, rewriteTree_nil] at h1
              cases h1
            rw [rewriteTree_pos im b t.ids htne hpt] at h1
            cases hmi : mapIds im t.ids with
            | none => rw [hmi] at h1; cases h1
            | some ids' =>
              rw [hmi] at h1
              simp only [Option.map_some', Option.some.injEq] at h1
              subst h1
              cases q with
              | zero =>
                rw [treeAt_cons_zero] at hq
                simp only [RexKind.kindTree, Option.some.injEq] at hq
                rw [← hq]
                refine ⟨mapIds_ne_nil im t.ids ids' hmi htne, ?_⟩
                intro x hx
                have hf := mapIds_forall₂ im t.ids ids' hmi
                rcases List.forall₂_iff_get.mp hf with ⟨hlen, hget⟩
                rcases List.get_of_mem hx with ⟨⟨i, hi⟩, rfl⟩
                have hpair := hget i (by omega) hi
                exact ⟨him_pos _ _ hpair.2 (Nat.pos_iff_ne_zero.mp hpair.1),
                  him_lt _ (List.get?_mem hpair.2)⟩
              | succ qq => exfalso; simp at hqlt
          | Sum t =>
            rw [show expandKind (RexKind.Sum t) = [RexKind.Sum t] from rfl,
              pass2Go_single] at h1
            rw [show rewriteKind im b (RexKind.Sum t) =
              (rewriteTree im b t.ids).map (fun ids => RexKind.Sum ⟨ids⟩) from rfl] at h1
            have hpt : ∀ id ∈ t.ids, 0 < id :=
              hpos (RexKind.Sum t) (by simp) t.ids rfl
            have htne : t.ids ≠ [] := by
              intro hc
              rw [hc, rewriteTree_nil] at h1
              cases h1
            rw [rewriteTree_pos im b t.ids htne hpt] at h1
            cases hmi : mapIds im t.ids with
            | none => rw [hmi] at h1; cases h1
            | some ids' =>
              rw [hmi] at h1
              simp only [Option.map_some', Option.some.injEq] at h1
              subst h1
              cases q with
              | zero =>
                rw [treeAt_cons_zero] at hq
                simp only [RexKind.kindTree, Option.some.injEq] at hq
                rw [← hq]
                refine ⟨mapIds_ne_nil im t.ids ids' hmi htne, ?_⟩
                intro x hx
                have hf := mapIds_forall₂ im t.ids ids' hmi
                rcases List.forall₂_iff_get.mp hf with ⟨hlen, hget⟩
                rcases List.get_of_mem hx with ⟨⟨i, hi⟩, rfl⟩
                have hpair := hget i (by omega) hi
                exact ⟨him_pos _ _ hpair.2 (Nat.pos_iff_ne_zero.mp hpair.1),
                  him_lt _ (List.get?_mem hpair.2)⟩
              | succ qq => exfalso; simp at hqlt
        · -- inside the tail blocks
          rw [if_neg hqlt] at hq
          refine ih (b + (expandKind k).length) im N o2 ?_ him_lt him_pos
            (fun x hx => hpos x (by simp [hx])) h2 (q - o1.length) ids ?_
          · simp only [List.flatMap_cons, List.length_append] at hN
            omega
          · exact hq

/-- The forward-edge invariant of `fit_clone` output: under the input
forward invariant, every rewritten child id exceeds its owner's (new)
position. -/
theorem pass2_blocks_forward :
    ∀ (ks : List RexKind) (p0 b : Nat) (im : List Nat) (N : Nat) (out : List RexKind),
      b + (ks.flatMap expandKind).length ≤ N →
      (∀ v ∈ im, v < N) →
      (∀ j j' v v', j < j' → im.get? j = some v → im.get? j' = some v' → v < v') →
      (∀ i, i < ks.length →
        im.get? (p0 + i) = some (b + ((ks.take i).flatMap expandKind).length)) →
      (∀ i k, ks.get? i = some k → ∀ ids, k.kindTree = some ids →
        ∀ id ∈ ids, p0 + i < id) →
      pass2Go im b (ks.flatMap expandKind) = some out →
      ∀ q ids, treeAt out q = some ids → ∀ x ∈ ids, b + q < x ∧ x < N := by
  intro ks
  induction ks with
  | nil =>
    intro p0 b im N out _ _ _ _ _ hp q ids hq
    simp only [List.flatMap_nil, pass2Go_nil, Option.some.injEq] at hp
    subst hp
    rw [treeAt_eq_none_of_le [] q (by simp)] at hq
    cases hq
  | cons k ks ih =>
    intro p0 b im N out hN him_lt him_mono him hfor hp q ids hq
    rw [List.flatMap_cons, pass2Go_append im] at hp
    cases h1 : pass2Go im b (expandKind k) with
    | none => rw [h1] at hp; cases hp
    | some o1 =>
      rw [h1] at hp
      cases h2 : pass2Go im (b + (expandKind k).length) (ks.flatMap expandKind) with
      | none => rw [h2] at hp; cases hp
      | some o2 =>
        rw [h2] at hp
        simp at hp
        subst hp
        have ho1len : o1.length = (expandKind k).length := pass2Go_length im _ _ _ h1
        have himb : im.get? p0 = some b := by
          have := him 0 (by simp)
          simpa using this
        rw [treeAt_append] at hq
        by_cases hqlt : q < o1.length
        · rw [if_pos hqlt] at hq
          cases k with
          | Fat far =>
            rw [show expandKind (RexKind.Fat far) =
              RexKind.Sum ⟨List.replicate (farToTars far).length 0⟩ ::
                (farToTars far).map RexKind.Thin from rfl] at h1
            rw [pass2Go_cons] at h1
            cases hm : (farToTars far).length with
            | zero =>
              rw [show rewriteKind im b (RexKind.Sum ⟨List.replicate (farToTars far).length 0⟩) =
                (rewriteTree im b (List.replicate (farToTars far).length 0)).map
                  (fun ids => RexKind.Sum ⟨ids⟩) from rfl, hm] at h1
              simp [rewriteTree_nil] at h1
            | succ mm =>
              rw [show rewriteKind im b (RexKind.Sum ⟨List.replicate (farToTars far).length 0⟩) =
                (rewriteTree im b (List.replicate (farToTars far).length 0)).map
                  (fun ids => RexKind.Sum ⟨ids⟩) from rfl] at h1
              rw [rewriteTree_replicate im b _ (by omega)] at h1
              rw [pass2Go_thins] at h1
              simp only [Option.map_some', Option.bind_some, Option.some.injEq] at h1
              subst h1
              cases q with
              | zero =>
                rw [treeAt_cons_zero] at hq
                simp only [RexKind.kindTree, Option.some.injEq] at hq
                rw [← hq]
                intro x hx
                rw [List.mem_range'_1] at hx
                have heL : (expandKind (RexKind.Fat far)).length =
                    1 + (farToTars far).length := by
                  simp only [expandKind, List.length_cons, List.length_map]
                  omega
                have hsplit : ((RexKind.Fat far :: ks).flatMap expandKind).length =
                    (expandKind (RexKind.Fat far)).length +
                      (ks.flatMap expandKind).length := by
                  simp [List.flatMap_cons]
                omega
              | succ qq =>
                rw [treeAt_cons_succ, treeAt_map_thin] at hq
                cases hq
          | Thin tar =>
            rw [show expandKind (RexKind.Thin tar) = [RexKind.Thin tar] from rfl,
              pass2Go_single] at h1
            rw [show rewriteKind im b (RexKind.Thin tar) = some (RexKind.Thin tar) from rfl] at h1
            simp only [Option.map_some', Option.some.injEq] at h1
            subst h1
            cases q with
            | zero => rw [treeAt_cons_zero] at hq; cases hq
            | succ qq => exfalso; simp at hqlt
          | Instance inst =>
            rw [show expandKind (RexKind.Instance inst) = [RexKind.Instance inst] from rfl,
              pass2Go_single] at h1
            rw [show rewriteKind im b (RexKind.Instance inst) =
              some (RexKind.Instance inst) from rfl] at h1
            simp only [Option.map_some', Option.some.injEq] at h1
            subst h1
            cases q with
            | zero => rw [treeAt_cons_zero] at hq; cases hq
            | succ qq => exfalso; simp at hqlt
          | Product t =>
            rw [show expandKind (RexKind.Product t) = [RexKind.Product t] from rfl,
              pass2Go_single] at h1
            rw [show rewriteKind im b (RexKind.Product t) =
              (rewriteTree im b t.ids).map (fun ids => RexKind.Product ⟨ids⟩) from rfl] at h1
            have hfor0 : ∀ id ∈ t.ids, p0 < id := by
              intro id hid
              have := hfor 0 (RexKind.Product t) (by rfl) t.ids rfl id hid
              simpa using this
            have htne : t.ids ≠ [] := by
              intro hc
              rw [hc, rewriteTree_nil] at h1
              cases h1
            have hrw : rewriteTree im b t.ids = mapIds im t.ids := by
              cases hti : t.ids with
              | nil => exact absurd hti htne
              | cons first rest =>
                rw [← hti, rewriteTree_pos im b t.ids htne]
                intro id hid
                have := hfor0 id hid
                omega
            rw [hrw] at h1
            cases hmi : mapIds im t.ids with
            | none => rw [hmi] at h1; cases h1
            | some ids' =>
              rw [hmi] at h1
              simp only [Option.map_some', Option.some.injEq] at h1
              subst h1
              cases q with
              | zero =>
                rw [treeAt_cons_zero] at hq
                simp only [RexKind.kindTree, Option.some.injEq] at hq
                rw [← hq]
                intro x hx
                have hf := mapIds_forall₂ im t.ids ids' hmi
                rcases List.forall₂_iff_get.mp hf with ⟨hlen, hget⟩
                rcases List.get_of_mem hx with ⟨⟨i, hi⟩, rfl⟩
                have hpair := hget i (by omega) hi
                have hjmem : t.ids.get ⟨i, by omega⟩ ∈ t.ids := List.get_mem t.ids _ _
                have hgt : p0 < t.ids.get ⟨i, by omega⟩ := hfor0 _ hjmem
                refine ⟨?_, him_lt _ (List.get?_mem hpair.2)⟩
                have := him_mono p0 _ b _ hgt himb hpair.2
                omega
              | succ qq => exfalso; simp at hqlt
          | Sum t =>
            rw [show expandKind (RexKind.Sum t) = [RexKind.Sum t] from rfl,
              pass2Go_single] at h1
            rw [show rewriteKind im b (RexKind.Sum t) =
              (rewriteTree im b t.ids).map (fun ids => RexKind.Sum ⟨ids⟩) from rfl] at h1
            have hfor0 : ∀ id ∈ t.ids, p0 < id := by
              intro id hid
              have := hfor 0 (RexKind.Sum t) (by rfl) t.ids rfl id hid
              simpa using this
            have htne : t.ids ≠ [] := by
              intro hc
              rw [hc, rewriteTree_nil] at h1
              cases h1
            have hrw : rewriteTree im b t.ids = mapIds im t.ids := by
              cases hti : t.ids with
              | nil => exact absurd hti htne
              | cons first rest =>
                rw [← hti, rewriteTree_pos im b t.ids htne]
                intro id hid
                have := hfor0 id hid
                omega
            rw [hrw] at h1
            cases hmi : mapIds im t.ids with
            | none => rw [hmi] at h1; cases h1
            | some ids' =>
              rw [hmi] at h1
              simp only [Option.map_some', Option.some.injEq] at h1
              subst h1
              cases q with
              | zero =>
                rw [treeAt_cons_zero] at hq
                simp only [RexKind.kindTree, Option.some.injEq] at hq
                rw [← hq]
                intro x hx
                have hf := mapIds_forall₂ im t.ids ids' hmi
                rcases List.forall₂_iff_get.mp hf with ⟨hlen, hget⟩
                rcases List.get_of_mem hx with ⟨⟨i, hi⟩, rfl⟩
                have hpair := hget i (by omega) hi
                have hjmem : t.ids.get ⟨i, by omega⟩ ∈ t.ids := List.get_mem t.ids _ _
                have hgt : p0 < t.ids.get ⟨i, by omega⟩ := hfor0 _ hjmem
                refine ⟨?_, him_lt _ (List.get?_mem hpair.2)⟩
                have := him_mono p0 _ b _ hgt himb hpair.2
                omega
              | succ qq => exfalso; simp at hqlt
        · rw [if_neg hqlt] at hq
          have hres := ih (p0 + 1) (b + (expandKind k).length) im N o2 ?_ him_lt him_mono ?_ ?_
            h2 (q - o1.length) ids hq
          · intro x hx
            have := hres x hx
            refine ⟨?_, this.2⟩
            have h1' := this.1
            omega
          · simp only [List.flatMap_cons, List.length_append] at hN
            omega
          · intro i hi
            have := him (i + 1) (by simpa using hi)
            rw [show p0 + (i + 1) = p0 + 1 + i from by omega] at this
            rw [this]
            simp [List.flatMap_cons]
            omega
          · intro i k' hk' ids' hids' id hid
            have := hfor (i + 1) k' (by simpa using hk') ids' hids' id hid
            omega

/-! ## `fit_clone` output invariants and the fixpoint property -/

theorem flatMap_expand_of_noFat (ks : List RexKind) (h : NoFatP ks) :
    ks.flatMap expandKind = ks := by
  induction ks with
  | nil => rfl
  | cons k ks ih =>
    rw [List.flatMap_cons, ih fun x hx => h x (by simp [hx])]
    have hk : k.isFat = false := h k (by simp)
    cases k with
    | Fat far => simp [RexKind.isFat] at hk
    | Thin tar => rfl
    | Instance inst => rfl
    | Product t => rfl
    | Sum t => rfl

theorem idMapOf_of_noFat (ks : List RexKind) (h : NoFatP ks) :
    ∀ b, idMapOf b ks = List.range' b ks.length := by
  induction ks with
  | nil => intro b; rfl
  | cons k ks ih =>
    intro b
    have hk : k.isFat = false := h k (by simp)
    have he : (expandKind k).length = 1 := by
      cases k with
      | Fat far => simp [RexKind.isFat] at hk
      | Thin tar => rfl
      | Instance inst => rfl
      | Product t => rfl
      | Sum t => rfl
    rw [idMapOf, he, ih fun x hx => h x (by simp [hx])]
    simp [List.range'_succ]

theorem pass2Go_id (im : List Nat) :
    ∀ ks n, (∀ k ∈ ks, ∀ ids, k.kindTree = some ids →
        ids ≠ [] ∧ ∀ id ∈ ids, 0 < id ∧ im.get? id = some id) →
      pass2Go im n ks = some ks := by
  intro ks
  induction ks with
  | nil => intro n _; rfl
  | cons k ks ih =>
    intro n h
    rw [pass2Go_cons]
    have hk' : rewriteKind im n k = some k := by
      cases k with
      | Thin tar => rfl
      | Fat far => rfl
      | Instance inst => rfl
      | Product t =>
        have ht := h (RexKind.Product t) (by simp) t.ids rfl
        show (rewriteTree im n t.ids).map (fun ids => RexKind.Product ⟨ids⟩) = _
        rw [rewriteTree_pos im n t.ids ht.1 fun id hid => (ht.2 id hid).1]
        rw [mapIds_id im t.ids ht.2]
        rfl
      | Sum t =>
        have ht := h (RexKind.Sum t) (by simp) t.ids rfl
        show (rewriteTree im n t.ids).map (fun ids => RexKind.Sum ⟨ids⟩) = _
        rw [rewriteTree_pos im n t.ids ht.1 fun id hid => (ht.2 id hid).1]
        rw [mapIds_id im t.ids ht.2]
        rfl
    rw [hk', ih (n + 1) fun x hx => h x (by simp [hx])]
    rfl

theorem pass2Go_isSome_of (im : List Nat) :
    ∀ ks n, (∀ k ∈ ks, ∀ ids, k.kindTree = some ids →
        (∃ m, 0 < m ∧ ids = List.replicate m 0) ∨
          (ids ≠ [] ∧ ∀ id ∈ ids, 0 < id ∧ id < im.length)) →
      (pass2Go im n ks).isSome := by
  intro ks
  induction ks with
  | nil => intro n _; simp [pass2Go_nil]
  | cons k ks ih =>
    intro n h
    rw [pass2Go_cons]
    have hk' : (rewriteKind im n k).isSome := by
      cases k with
      | Thin tar => rfl
      | Fat far => rfl
      | Instance inst => rfl
      | Product t =>
        show ((rewriteTree im n t.ids).map (fun ids => RexKind.Product ⟨ids⟩)).isSome
        rcases h (RexKind.Product t) (by simp) t.ids rfl with ⟨m, hm, hrep⟩ | ⟨hne, hb⟩
        · rw [hrep, rewriteTree_replicate im n m hm]; rfl
        · rw [rewriteTree_pos im n t.ids hne fun id hid => (hb id hid).1]
          have := mapIds_isSome im t.ids hb
          rw [Option.isSome_iff_exists] at this
          rcases this with ⟨out, hout⟩
          rw [hout]
          rfl
      | Sum t =>
        show ((rewriteTree im n t.ids).map (fun ids => RexKind.Sum ⟨ids⟩)).isSome
        rcases h (RexKind.Sum t) (by simp) t.ids rfl with ⟨m, hm, hrep⟩ | ⟨hne, hb⟩
        · rw [hrep, rewriteTree_replicate im n m hm]; rfl
        · rw [rewriteTree_pos im n t.ids hne fun id hid => (hb id hid).1]
          have := mapIds_isSome im t.ids hb
          rw [Option.isSome_iff_exists] at this
          rcases this with ⟨out, hout⟩
          rw [hout]
          rfl
    rw [Option.isSome_iff_exists] at hk'
    rcases hk' with ⟨k', hk'⟩
    rw [hk']
    have := ih (n + 1) fun x hx => h x (by simp [hx])
    rw [Option.isSome_iff_exists] at this
    rcases this with ⟨out, hout⟩
    rw [hout]
    rfl

theorem fitClone_pass2 (r : Rex) (r' : Rex) (h : r.fit_clone = some r') :
    pass2Go (idMapOf 0 r.kinds) 0 (r.kinds.flatMap expandKind) = some r'.kinds := by
  rw [fit_clone_eq] at h
  cases hp : pass2Go (idMapOf 0 r.kinds) 0 (r.kinds.flatMap expandKind) with
  | none => rw [hp] at h; cases h
  | some out =>
    rw [hp] at h
    simp only [Option.map_some', Option.some.injEq] at h
    rw [← h]

theorem fitClone_length (r r' : Rex) (h : r.fit_clone = some r') :
    r'.kinds.length = (r.kinds.flatMap expandKind).length :=
  pass2Go_length _ _ _ _ (fitClone_pass2 r r' h)

theorem fitClone_noFatP (r r' : Rex) (h : r.fit_clone = some r') : NoFatP r'.kinds := by
  intro k hk
  refine pass2Go_noFat _ _ _ _ (fitClone_pass2 r r' h) ?_ k hk
  intro k' hk'
  rw [List.mem_flatMap] at hk'
  rcases hk' with ⟨k0, _, hk'⟩
  exact expandKind_not_fat k0 k' hk'

theorem fitClone_pos_bound (r r' : Rex) (hpos : AllPosP r.kinds)
    (h : r.fit_clone = some r') :
    ∀ q ids, treeAt r'.kinds q = some ids →
      ids ≠ [] ∧ ∀ x ∈ ids, 0 < x ∧ x < r'.kinds.length := by
  intro q ids hq
  have hlen := fitClone_length r r' h
  refine pass2_blocks_pos_bound r.kinds 0 (idMapOf 0 r.kinds) r'.kinds.length r'.kinds
    (by omega) ?_ ?_ hpos (fitClone_pass2 r r' h) q ids hq
  · intro v hv
    have := idMapOf_mem_lt r.kinds 0 v hv
    omega
  · intro j v hj hjne
    have := idMapOf_get?_le r.kinds 0 j v hj
    omega

theorem fitClone_forwardP (r r' : Rex) (hb : TreesBoundP r.kinds)
    (h : r.fit_clone = some r') : TreesBoundP r'.kinds := by
  intro q ids hq
  have hlen := fitClone_length r r' h
  have hres := pass2_blocks_forward r.kinds 0 0 (idMapOf 0 r.kinds) r'.kinds.length r'.kinds
    (by omega) ?_ ?_ ?_ ?_ (fitClone_pass2 r r' h) q ids hq
  · intro id hid
    have := hres id hid
    omega
  · intro v hv
    have := idMapOf_mem_lt r.kinds 0 v hv
    omega
  · exact idMapOf_mono r.kinds 0
  · intro i hi
    have := idMapOf_get? r.kinds 0 i hi
    simpa using this
  · intro i k hk ids' hids' id hid
    have hta : treeAt r.kinds i = some ids' := by
      show (r.kinds.get? i).bind RexKind.kindTree = some ids'
      rw [hk]
      exact hids'
    have := hb i ids' hta id hid
    omega

theorem fitClone_fixpoint (s : Rex) (hnf : NoFatP s.kinds)
    (hgood : ∀ q ids, treeAt s.kinds q = some ids →
      ids ≠ [] ∧ ∀ x ∈ ids, 0 < x ∧ x < s.kinds.length) :
    s.fit_clone = some s := by
  rw [fit_clone_eq, flatMap_expand_of_noFat s.kinds hnf, idMapOf_of_noFat s.kinds hnf 0]
  rw [pass2Go_id]
  · rfl
  · intro k hk ids hids
    rcases mem_treeAt s.kinds k hk ids hids with ⟨p, hp⟩
    have := hgood p ids hp
    refine ⟨this.1, ?_⟩
    intro id hid
    refine ⟨(this.2 id hid).1, ?_⟩
    have hlt := (this.2 id hid).2
    rw [List.get?_eq_getElem?]
    simp [List.getElem?_range', hlt]

theorem fitClone_idem (r r' : Rex) (hpos : AllPosP r.kinds)
    (h : r.fit_clone = some r') : r'.fit_clone = some r' :=
  fitClone_fixpoint r' (fitClone_noFatP r r' h) (fitClone_pos_bound r r' hpos h)

/-! ## FIT produces a non-empty rule list from non-empty parts -/

theorem mergeInto_length (eq : ThinArrowRule → ThinArrowRule → Bool)
    (upd : ThinArrowRule → ThinArrowRule → ThinArrowRule) :
    ∀ acc t acc', mergeInto eq upd acc t = some acc' → acc'.length = acc.length := by
  intro acc
  induction acc with
  | nil => intro t acc' h; cases h
  | cons a rest ih =>
    intro t acc' h
    rw [mergeInto] at h
    split at h
    · injection h with h
      rw [← h]
      rfl
    · cases hrec : mergeInto eq upd rest t with
      | none => rw [hrec] at h; cases h
      | some acc'' =>
        rw [hrec, Option.map_some'] at h
        injection h with h
        rw [← h]
        simp [ih t acc'' hrec]

theorem mergePass_ne_nil (eq : ThinArrowRule → ThinArrowRule → Bool)
    (upd : ThinArrowRule → ThinArrowRule → ThinArrowRule) :
    ∀ l acc flag, acc ≠ [] ∨ l ≠ [] → (mergePass eq upd acc flag l).1 ≠ [] := by
  intro l
  induction l with
  | nil =>
    intro acc flag h
    rcases h with h | h
    · exact h
    · exact absurd rfl h
  | cons t ts ih =>
    intro acc flag _
    rw [mergePass]
    cases hm : mergeInto eq upd acc t with
    | none =>
      exact ih (acc ++ [t]) flag (.inl (by simp))
    | some acc' =>
      refine ih acc' true (.inl ?_)
      have hlen := mergeInto_length eq upd acc t acc' hm
      have hne : acc ≠ [] := by
        intro hc
        rw [hc] at hm
        cases hm
      intro hc
      rw [hc] at hlen
      simp at hlen
      exact hne (List.eq_nil_of_length_eq_zero hlen.symm)

theorem fitLoop_ne_nil :
    ∀ fuel tx rx, tx ≠ [] → (fitLoop fuel tx rx).1 ≠ [] := by
  intro fuel
  induction fuel with
  | zero => intro tx rx h; exact h
  | succ fuel ih =>
    intro tx rx h
    rw [fitLoop]
    have h2 : (phase2Tx tx).1 ≠ [] := mergePass_ne_nil _ _ tx [] false (.inr h)
    have h3 : (phase3Tx (phase2Tx tx).1).1 ≠ [] :=
      mergePass_ne_nil _ _ (phase2Tx tx).1 [] false (.inr h2)
    split
    · exact ih _ _ h3
    · exact h3

theorem pairInto_length :
    ∀ txs r txs', pairInto txs r = some txs' → txs'.length = txs.length := by
  intro txs
  induction txs with
  | nil => intro r txs' h; cases h
  | cons t rest ih =>
    intro r txs' h
    rw [pairInto] at h
    split at h
    · injection h with h
      rw [← h]
      rfl
    · cases hrec : pairInto rest r with
      | none => rw [hrec] at h; cases h
      | some txs'' =>
        rw [hrec, Option.map_some'] at h
        injection h with h
        rw [← h]
        simp [ih r txs'' hrec]

theorem phase4_ne_nil :
    ∀ rs txs, txs ≠ [] → phase4 txs rs ≠ [] := by
  intro rs
  induction rs with
  | nil => intro txs h; exact h
  | cons r rest ih =>
    intro txs h
    rw [phase4]
    cases hp : pairInto txs r with
    | none => exact ih (txs ++ [r]) (by simp)
    | some txs' =>
      refine ih txs' ?_
      have hlen := pairInto_length txs r txs' hp
      intro hc
      rw [hc] at hlen
      simp at hlen
      exact h (List.eq_nil_of_length_eq_zero hlen.symm)

theorem farToTars_ne_nil (far : FatArrowRule) (h : far.parts ≠ []) :
    farToTars far ≠ [] := by
  rw [farToTars]
  refine phase4_ne_nil _ _ ?_
  refine fitLoop_ne_nil _ _ _ ?_
  simp only [phase1]
  intro hc
  rw [List.map_eq_nil] at hc
  exact h hc

/-! ## `fit_clone` panics on an empty tree; succeeds on safe input -/

theorem kindTree_isFat_false (k : RexKind) (ids : List Nat) (h : k.kindTree = some ids) :
    k.isFat = false := by
  cases k <;> first | rfl | cases h

theorem expandKind_of_not_fat (k : RexKind) (h : k.isFat = false) : expandKind k = [k] := by
  cases k with
  | Fat far => simp [RexKind.isFat] at h
  | Thin tar => rfl
  | Instance inst => rfl
  | Product t => rfl
  | Sum t => rfl

theorem rewriteKind_none_of_empty (im : List Nat) (n : Nat) (k : RexKind)
    (h : k.kindTree = some []) : rewriteKind im n k = none := by
  cases k with
  | Thin tar => cases h
  | Fat far => cases h
  | Instance inst => cases h
  | Product t =>
    simp only [RexKind.kindTree, Option.some.injEq] at h
    show (rewriteTree im n t.ids).map (fun ids => RexKind.Product ⟨ids⟩) = none
    rw [h, rewriteTree_nil]
    rfl
  | Sum t =>
    simp only [RexKind.kindTree, Option.some.injEq] at h
    show (rewriteTree im n t.ids).map (fun ids => RexKind.Sum ⟨ids⟩) = none
    rw [h, rewriteTree_nil]
    rfl

theorem pass2Go_none_of_empty_tree (im : List Nat) :
    ∀ ks n, (∃ k ∈ ks, k.kindTree = some []) → pass2Go im n ks = none := by
  intro ks
  induction ks with
  | nil => intro n h; rcases h with ⟨k, hk, _⟩; cases hk
  | cons k ks ih =>
    intro n h
    rw [pass2Go_cons]
    rcases h with ⟨k0, hk0, hk0t⟩
    rcases List.mem_cons.mp hk0 with hh | hh
    · subst hh
      rw [rewriteKind_none_of_empty im n k0 hk0t]
    · cases hrw : rewriteKind im n k with
      | none => rfl
      | some k' => rw [ih (n + 1) ⟨k0, hh, hk0t⟩]; rfl

theorem fitClone_none_of_empty_tree (r : Rex)
    (h : ∃ k ∈ r.kinds, k.kindTree = some []) : r.fit_clone = none := by
  rcases h with ⟨k, hk, hkt⟩
  rw [fit_clone_eq]
  rw [pass2Go_none_of_empty_tree]
  · rfl
  · refine ⟨k, ?_, hkt⟩
    rw [List.mem_flatMap]
    refine ⟨k, hk, ?_⟩
    rw [expandKind_of_not_fat k (kindTree_isFat_false k [] hkt)]
    simp

theorem fitClone_isSome_of (r : Rex)
    (hsafe : ∀ k ∈ r.kinds, ∀ ids, k.kindTree = some ids →
      ids ≠ [] ∧ ∀ id ∈ ids, id < r.kinds.length)
    (hpos : AllPosP r.kinds)
    (hfat : ∀ k ∈ r.kinds, ∀ far, k = .Fat far → far.parts ≠ []) :
    r.fit_clone.isSome := by
  rw [fit_clone_eq]
  have hlen : (idMapOf 0 r.kinds).length = r.kinds.length := idMapOf_length r.kinds 0
  have := pass2Go_isSome_of (idMapOf 0 r.kinds) (r.kinds.flatMap expandKind) 0 ?_
  · rw [Option.isSome_iff_exists] at this
    rcases this with ⟨out, hout⟩
    rw [hout]
    rfl
  · intro k' hk' ids hids
    rw [List.mem_flatMap] at hk'
    rcases hk' with ⟨k, hk, hk'⟩
    cases k with
    | Fat far =>
      simp only [expandKind, List.mem_cons, List.mem_map] at hk'
      rcases hk' with hh | ⟨t, _, hh⟩
      · subst hh
        simp only [RexKind.kindTree, Option.some.injEq] at hids
        refine .inl ⟨(farToTars far).length, ?_, hids.symm⟩
        have := farToTars_ne_nil far (hfat (RexKind.Fat far) hk far rfl)
        cases hft : farToTars far with
        | nil => exact absurd hft this
        | cons a b => simp
      · subst hh
        cases hids
    | Thin tar =>
      rw [expandKind_of_not_fat (RexKind.Thin tar) rfl] at hk'
      simp at hk'
      subst hk'
      cases hids
    | Instance inst =>
      rw [expandKind_of_not_fat (RexKind.Instance inst) rfl] at hk'
      simp at hk'
      subst hk'
      cases hids
    | Product t =>
      rw [expandKind_of_not_fat (RexKind.Product t) rfl] at hk'
      simp at hk'
      subst hk'
      refine .inr ⟨(hsafe _ hk _ hids).1, ?_⟩
      intro id hid
      refine ⟨hpos _ hk _ hids id hid, ?_⟩
      rw [hlen]
      exact (hsafe _ hk _ hids).2 id hid
    | Sum t =>
      rw [expandKind_of_not_fat (RexKind.Sum t) rfl] at hk'
      simp at hk'
      subst hk'
      refine .inr ⟨(hsafe _ hk _ hids).1, ?_⟩
      intro id hid
      refine ⟨hpos _ hk _ hids id hid, ?_⟩
      rw [hlen]
      exact (hsafe _ hk _ hids).2 id hid

/-! ## The compiler cannot return `FatLeak` -/

theorem setParents_error (ids : List Nat) :
    ∀ parents pos e, setParents parents pos ids = some (.error e) → e = .InvalidAST := by
  induction ids with
  | nil => intro parents pos e h; cases h
  | cons i is ih =>
    intro parents pos e h
    rw [setParents] at h
    split at h
    · split at h
      · exact ih _ pos e h
      · cases h
    · injection h with h
      injection h with h
      exact h.symm

theorem buildParents_tree (ctx : Context) (pos : Nat) (merged : List (Option PartialContent))
    (parents : List Nat) (ids : List Nat) (ks : List RexKind) (e : AscesisError)
    (h : (match setParents parents pos ids with
      | none => none
      | some (.error e) => some (.error e)
      | some (.ok parents') =>
        buildParents ctx (pos + 1) (merged.set pos (some (PartialContent.new ctx))) parents' ks) =
      some (Except.error e))
    (ih : ∀ merged parents, buildParents ctx (pos + 1) merged parents ks = some (.error e) →
      e = .InvalidAST) : e = .InvalidAST := by
  cases hs : setParents parents pos ids with
  | none => rw [hs] at h; cases h
  | some r =>
    cases r with
    | error e' =>
      rw [hs] at h
      injection h with h
      injection h with h
      rw [← h]
      exact setParents_error ids parents pos e' hs
    | ok parents' =>
      rw [hs] at h
      exact ih _ parents' h

theorem buildParents_error (ks : List RexKind) :
    ∀ ctx pos merged parents e,
      buildParents ctx pos merged parents ks = some (.error e) → e = .InvalidAST := by
  induction ks with
  | nil => intro ctx pos merged parents e h; cases h
  | cons k ks ih =>
    intro ctx pos merged parents e h
    cases k with
    | Thin tar => exact ih ctx (pos + 1) merged parents e h
    | Fat far => exact ih ctx (pos + 1) merged parents e h
    | Instance inst => exact ih ctx (pos + 1) merged parents e h
    | Product t =>
      exact buildParents_tree ctx pos merged parents t.ids ks e h
        fun m p hh => ih ctx (pos + 1) m p e hh
    | Sum t =>
      exact buildParents_tree ctx pos merged parents t.ids ks e h
        fun m p hh => ih ctx (pos + 1) m p e hh

theorem compileStep_not_fatLeak (merged : List (Option PartialContent)) (ctx : Context)
    (pos : Nat) (k : RexKind) (hk : k.isFat = false) :
    compileStep merged ctx pos k ≠ .error .FatLeak := by
  cases k with
  | Fat far => simp [RexKind.isFat] at hk
  | Thin tar => intro h; cases h
  | Instance inst =>
    show (match ctx.get_content inst.name.name with
      | some c => Except.ok (c, merged, ctx)
      | none => Except.error (AscesisError.UnexpectedDependency inst.name.name)) ≠
        Except.error AscesisError.FatLeak
    cases ctx.get_content inst.name.name <;> intro h <;> cases h
  | Product t =>
    show (match merged.get? pos with
      | some (some c) => Except.ok (c, merged.set pos none, ctx)
      | _ => Except.error AscesisError.InvalidAST) ≠ Except.error AscesisError.FatLeak
    cases hm : merged.get? pos with
    | none => intro h; cases h
    | some o => cases o <;> intro h <;> cases h
  | Sum t =>
    show (match merged.get? pos with
      | some (some c) => Except.ok (c, merged.set pos none, ctx)
      | _ => Except.error AscesisError.InvalidAST) ≠ Except.error AscesisError.FatLeak
    cases hm : merged.get? pos with
    | none => intro h; cases h
    | some o => cases o <;> intro h <;> cases h

theorem compileDown_not_fatLeak (kinds : List RexKind) (parents : List Nat)
    (hnf : NoFatP kinds) :
    ∀ pos merged ctx,
      compileDown kinds parents pos merged ctx ≠ some (.error .FatLeak) := by
  intro pos
  induction pos with
  | zero =>
    intro merged ctx h
    rw [compileDown] at h
    split at h
    · cases h
    · rename_i k hk
      split at h
      · rename_i e hstep
        injection h with h
        injection h with h
        rw [h] at hstep
        exact compileStep_not_fatLeak merged ctx 0 k (hnf k (List.get?_mem hk)) hstep
      · cases h
  | succ p ih =>
    intro merged ctx h
    rw [compileDown] at h
    split at h
    · cases h
    · rename_i k hk
      split at h
      · rename_i e hstep
        injection h with h
        injection h with h
        rw [h] at hstep
        exact compileStep_not_fatLeak merged ctx (p + 1) k (hnf k (List.get?_mem hk)) hstep
      · rename_i r hstep
        split at h
        · cases h
        · split at h
          · split at h
            · exact ih _ _ h
            · exact ih _ _ h
            · cases h
            · cases h
          · cases h
          · cases h
/-! ## Helpers for the `with_more` invariant -/

theorem treeAt_set (ks : List RexKind) (i : Nat) (k : RexKind) (p : Nat)
    (hi : i < ks.length) :
    treeAt (ks.set i k) p = if p = i then k.kindTree else treeAt ks p := by
  by_cases h : p = i
  · subst h
    rw [if_pos rfl]
    show ((ks.set p k).get? p).bind RexKind.kindTree = _
    rw [List.get?_set_eq_of_lt k hi]
    rfl
  · rw [if_neg h]
    show ((ks.set i k).get? p).bind RexKind.kindTree = (ks.get? p).bind RexKind.kindTree
    rw [List.get?_set_ne _ _ fun hc => h hc.symm]

theorem kindTree_shift (off : Nat) (k : RexKind) :
    (shiftKind off k).kindTree = k.kindTree.map (List.map (· + off)) := by
  cases k <;> rfl

theorem treeAt_shift_block (kinds src : List RexKind) (off : Nat) (p : Nat) :
    treeAt (kinds ++ src.map (shiftKind off)) p =
      if p < kinds.length then treeAt kinds p
      else (treeAt src (p - kinds.length)).map (List.map (· + off)) := by
  rw [treeAt_append]
  by_cases h : p < kinds.length
  · rw [if_pos h, if_pos (by simpa using h)]
  · rw [if_neg h, if_neg (by simpa using h)]
    show ((src.map (shiftKind off)).get? (p - kinds.length)).bind RexKind.kindTree =
      ((src.get? (p - kinds.length)).bind RexKind.kindTree).map (List.map (· + off))
    rw [List.get?_map]
    cases src.get? (p - kinds.length) with
    | none => rfl
    | some k => exact kindTree_shift off k

theorem get?_append_left' (xs ys : List RexKind) (p : Nat) (h : p < xs.length) :
    (xs ++ ys).get? p = xs.get? p := List.get?_append h

theorem get?_set_preserved (ks : List RexKind) (i p : Nat) (k : RexKind)
    (hne : i ≠ p) : (ks.set i k).get? p = ks.get? p :=
  List.get?_set_ne _ _ hne

/-- Appending a shifted well-formed rex block preserves the partial tree
invariant of the `with_more` loop. -/
theorem htree_append (kinds src : List RexKind) (off : Nat) (pids : List Nat) (anchor : Nat)
    (hoff : off = kinds.length)
    (hsrcB : TreesBoundP src) (hsrcS : NoSingleP src)
    (ht : ∀ p ids, treeAt kinds p = some ids → p ≠ 0 → (pids ≠ [] → p ≠ anchor) →
      ids.length ≠ 1 ∧ ∀ id ∈ ids, p < id ∧ id < kinds.length) :
    ∀ p ids, treeAt (kinds ++ src.map (shiftKind off)) p = some ids → p ≠ 0 →
      (pids ≠ [] → p ≠ anchor) →
      ids.length ≠ 1 ∧
        ∀ id ∈ ids, p < id ∧ id < (kinds ++ src.map (shiftKind off)).length := by
  subst hoff
  intro p ids hp hp0 hpa
  rw [treeAt_shift_block] at hp
  have hlen : (kinds ++ src.map (shiftKind kinds.length)).length =
      kinds.length + src.length := by simp
  by_cases hc : p < kinds.length
  · rw [if_pos hc] at hp
    have := ht p ids hp hp0 hpa
    refine ⟨this.1, ?_⟩
    intro id hid
    have h2 := this.2 id hid
    omega
  · rw [if_neg hc] at hp
    cases hsrc : treeAt src (p - kinds.length) with
    | none => rw [hsrc] at hp; cases hp
    | some ids0 =>
      rw [hsrc, Option.map_some'] at hp
      injection hp with hp
      constructor
      · rw [← hp]
        rw [List.length_map]
        rcases treeAt_mem src (p - kinds.length) ids0 hsrc with ⟨k, hk, hkt⟩
        exact hsrcS k hk ids0 hkt
      · intro id hid
        rw [← hp] at hid
        rw [List.mem_map] at hid
        rcases hid with ⟨id0, hid0, rfl⟩
        have := hsrcB (p - kinds.length) ids0 hsrc id0 hid0
        omega

/-! ## Unfolding lemmas for `withMoreGo` -/

theorem withMoreGo_nil (kinds : List RexKind) (sum_ids product_ids : List Nat)
    (anchor offset : Nat) :
    withMoreGo kinds sum_ids product_ids anchor offset [] =
      (if product_ids = [] then some kinds
       else if anchor < kinds.length then
         some (kinds.set anchor (.Product ⟨product_ids⟩))
       else none).map fun ks => ⟨ks.set 0 (.Sum ⟨sum_ids ++ [anchor]⟩)⟩ := rfl

theorem withMoreGo_none_op (kinds : List RexKind) (sum_ids product_ids : List Nat)
    (anchor offset : Nat) (rex : Rex) (rest : List (Option BinOp × Rex)) :
    withMoreGo kinds sum_ids product_ids anchor offset ((none, rex) :: rest) =
      withMoreGo (kinds ++ rex.kinds.map (shiftKind offset)) sum_ids
        (product_ids ++ [offset]) anchor (offset + rex.kinds.length) rest := rfl

theorem withMoreGo_add_flnone (kinds : List RexKind) (sum_ids product_ids : List Nat)
    (anchor offset : Nat) (rex : Rex) (rest : List (Option BinOp × Rex))
    (hfl : (if product_ids = [] then some (kinds, product_ids)
      else match kinds.get? anchor with
        | some (.Product t) =>
          some (kinds.set anchor (.Product ⟨t.ids ++ product_ids⟩), ([] : List Nat))
        | _ => none) = none) :
    withMoreGo kinds sum_ids product_ids anchor offset ((some .Add, rex) :: rest) = none := by
  rw [withMoreGo, hfl]

theorem withMoreGo_add_followed (kinds : List RexKind) (sum_ids product_ids : List Nat)
    (anchor offset : Nat) (rex : Rex) (rest : List (Option BinOp × Rex))
    (kinds1 : List RexKind)
    (hfl : (if product_ids = [] then some (kinds, product_ids)
      else match kinds.get? anchor with
        | some (.Product t) =>
          some (kinds.set anchor (.Product ⟨t.ids ++ product_ids⟩), ([] : List Nat))
        | _ => none) = some (kinds1, ([] : List Nat)))
    (hc : (match rest.head? with
      | some e => e.1.isNone
      | none => false) = true) :
    withMoreGo kinds sum_ids product_ids anchor offset ((some .Add, rex) :: rest) =
      withMoreGo ((kinds1 ++ [RexKind.Product ⟨[]⟩]) ++
          rex.kinds.map (shiftKind (offset + 1)))
        (sum_ids ++ [anchor]) [offset + 1] offset (offset + 1 + rex.kinds.length) rest := by
  rw [withMoreGo, hfl, hc]
  rfl

theorem withMoreGo_add_unfollowed (kinds : List RexKind) (sum_ids product_ids : List Nat)
    (anchor offset : Nat) (rex : Rex) (rest : List (Option BinOp × Rex))
    (kinds1 : List RexKind)
    (hfl : (if product_ids = [] then some (kinds, product_ids)
      else match kinds.get? anchor with
        | some (.Product t) =>
          some (kinds.set anchor (.Product ⟨t.ids ++ product_ids⟩), ([] : List Nat))
        | _ => none) = some (kinds1, ([] : List Nat)))
    (hc : (match rest.head? with
      | some e => e.1.isNone
      | none => false) = false) :
    withMoreGo kinds sum_ids product_ids anchor offset ((some .Add, rex) :: rest) =
      withMoreGo (kinds1 ++ rex.kinds.map (shiftKind offset))
        (sum_ids ++ [anchor]) [] offset (offset + rex.kinds.length) rest := by
  rw [withMoreGo, hfl, hc]
  rfl

theorem withMoreGo_bad_op (kinds : List RexKind) (sum_ids product_ids : List Nat)
    (anchor offset : Nat) (bop : BinOp) (rex : Rex) (rest : List (Option BinOp × Rex))
    (hb : bop ≠ .Add) :
    withMoreGo kinds sum_ids product_ids anchor offset ((some bop, rex) :: rest) = none := by
  cases bop with
  | Add => exact absurd rfl hb
  | ThinTx => rfl
  | ThinRx => rfl
  | FatTx => rfl
  | FatRx => rfl
  | FatDx => rfl

/-- Overwriting the root placeholder with the real root node preserves the
bound and no-single-child invariants. -/
theorem final_set_root_good (kinds1 : List RexKind) (rk : RexKind) (rootIds : List Nat)
    (hroot : rk.kindTree = some rootIds)
    (h0 : 0 < kinds1.length)
    (hlen1 : rootIds.length ≠ 1)
    (hri : ∀ id ∈ rootIds, 0 < id ∧ id < kinds1.length)
    (htr : ∀ p ids, treeAt kinds1 p = some ids → p ≠ 0 →
      ids.length ≠ 1 ∧ ∀ id ∈ ids, p < id ∧ id < kinds1.length) :
    TreesBoundP (kinds1.set 0 rk) ∧ NoSingleP (kinds1.set 0 rk) := by
  have hlen : (kinds1.set 0 rk).length = kinds1.length := List.length_set kinds1 0 rk
  have hall : ∀ p ids, treeAt (kinds1.set 0 rk) p = some ids →
      ids.length ≠ 1 ∧ ∀ id ∈ ids, p < id ∧ id < (kinds1.set 0 rk).length := by
    intro p ids hp
    rw [treeAt_set kinds1 0 rk p h0] at hp
    rw [hlen]
    by_cases hp0 : p = 0
    · rw [if_pos hp0, hroot] at hp
      injection hp with hp
      subst hp
      refine ⟨hlen1, ?_⟩
      intro id hid
      have := hri id hid
      subst hp0
      omega
    · rw [if_neg hp0] at hp
      exact htr p ids hp hp0
  constructor
  · intro p ids hp
    exact (hall p ids hp).2
  · intro k hk ids hids
    rcases mem_treeAt _ k hk ids hids with ⟨p, hp⟩
    exact (hall p ids hp).1

/-- Wrapping up the `Sum` branch: the final overwrite of the root with the
accumulated addends satisfies the bound and no-single-child invariants. -/
theorem wm_final_good (kinds1 : List RexKind) (sum_ids : List Nat) (anchor : Nat)
    (h0 : 0 < kinds1.length)
    (hanch1 : 1 ≤ anchor) (hanch2 : anchor < kinds1.length)
    (hsne : sum_ids ≠ [])
    (hsi : ∀ id ∈ sum_ids, 0 < id ∧ id < kinds1.length)
    (htr : ∀ p ids, treeAt kinds1 p = some ids → p ≠ 0 →
      ids.length ≠ 1 ∧ ∀ id ∈ ids, p < id ∧ id < kinds1.length) :
    TreesBoundP (kinds1.set 0 (.Sum ⟨sum_ids ++ [anchor]⟩)) ∧
      NoSingleP (kinds1.set 0 (.Sum ⟨sum_ids ++ [anchor]⟩)) := by
  refine final_set_root_good kinds1 (.Sum ⟨sum_ids ++ [anchor]⟩) (sum_ids ++ [anchor])
    rfl h0 ?_ ?_ htr
  · simp only [List.length_append, List.length_cons, List.length_nil]
    cases sum_ids with
    | nil => exact absurd rfl hsne
    | cons a b => simp
  · intro id hid
    rcases List.mem_append.mp hid with hh | hh
    · have := hsi id hh
      omega
    · simp at hh
      subst hh
      omega

/-- The master invariant argument: from a `WMInv` state, a successful run of
the `with_more` loop yields a slab satisfying the bound and no-single-child
invariants. -/
theorem withMoreGo_good :
    ∀ (rest : List (Option BinOp × Rex)) (kinds : List RexKind)
      (sum_ids product_ids : List Nat) (anchor offset : Nat) (out : Rex),
      WMInv kinds sum_ids product_ids anchor offset rest →
      withMoreGo kinds sum_ids product_ids anchor offset rest = some out →
      TreesBoundP out.kinds ∧ NoSingleP out.kinds := by
  intro rest
  induction rest with
  | nil =>
    intro kinds sum_ids product_ids anchor offset out inv h
    rw [withMoreGo_nil] at h
    have h0 : 0 < kinds.length := by
      by_contra hc
      have : kinds = [] := List.eq_nil_of_length_eq_zero (by omega)
      rw [this] at inv
      cases inv.hk0
    have hsne : sum_ids ≠ [] := by
      rcases inv.hsl with hh | hh
      · exact hh
      · rcases hh with ⟨e, he, _⟩
        cases he
    by_cases hpid : product_ids = []
    · rw [if_pos hpid, Option.map_some'] at h
      injection h with h
      rw [← h]
      exact wm_final_good kinds sum_ids anchor h0 inv.hanch1 inv.hanch2 hsne inv.hsi
        fun p ids hp hp0 => inv.htree p ids hp hp0 fun hne => absurd hpid hne
    · rw [if_neg hpid, if_pos inv.hanch2, Option.map_some'] at h
      injection h with h
      rw [← h]
      have hpl1 : product_ids.length ≠ 1 := by
        rcases inv.hpl with hh | hh
        · exact hh
        · rcases hh with ⟨e, he, _⟩
          cases he
      refine wm_final_good _ sum_ids anchor (by simpa using h0) ?_ ?_ hsne ?_ ?_
      · exact inv.hanch1
      · simpa using inv.hanch2
      · intro id hid
        have := inv.hsi id hid
        simpa using this
      · intro p ids hp hp0
        rw [treeAt_set kinds anchor _ p inv.hanch2] at hp
        by_cases hpa : p = anchor
        · rw [if_pos hpa] at hp
          simp only [RexKind.kindTree, Option.some.injEq] at hp
          subst hp
          refine ⟨hpl1, ?_⟩
          intro id hid
          have := inv.hpi id hid
          subst hpa
          simp only [List.length_set]
          omega
        · rw [if_neg hpa] at hp
          have := inv.htree p ids hp hp0 fun _ => hpa
          refine ⟨this.1, ?_⟩
          intro id hid
          have h2 := this.2 id hid
          simp only [List.length_set]
          omega
  | cons e rest ih =>
    rcases e with ⟨op, rex⟩
    intro kinds sum_ids product_ids anchor offset out inv h
    have hrx := inv.hrest (op, rex) (by simp)
    have hk0pos : 0 < kinds.length := by
      by_contra hc
      have : kinds = [] := List.eq_nil_of_length_eq_zero (by omega)
      rw [this] at inv
      cases inv.hk0
    have hrexne : 0 < rex.kinds.length := by
      cases hrk : rex.kinds with
      | nil => exact absurd hrk hrx.2.2
      | cons a b => simp
    cases op with
    | none =>
      -- a juxtaposed factor: `product_ids` cannot be empty here
      have hpid : product_ids ≠ [] := by
        intro hc
        have := inv.hhd hc (none, rex) rfl
        simp [Option.isSome] at this
      rw [withMoreGo_none_op] at h
      refine ih _ sum_ids _ anchor _ out ?_ h
      constructor
      case hoff => simp [inv.hoff]
      case hanch1 => exact inv.hanch1
      case hanch2 =>
        have := inv.hanch2
        simp only [List.length_append, List.length_map]
        omega
      case hk0 =>
        rw [get?_append_left' kinds _ 0 hk0pos]
        exact inv.hk0
      case htree =>
        refine htree_append kinds rex.kinds offset (product_ids ++ [offset]) anchor
          inv.hoff hrx.1 hrx.2.1 ?_
        intro p ids hp hp0 hpane
        refine inv.htree p ids hp hp0 ?_
        intro _
        exact hpane (by simp)
      case hpa =>
        intro _
        rw [get?_append_left' kinds _ anchor inv.hanch2]
        exact inv.hpa hpid
      case hpi =>
        intro id hid
        simp only [List.length_append, List.length_map]
        rcases List.mem_append.mp hid with hh | hh
        · have := inv.hpi id hh
          omega
        · simp at hh
          subst hh
          have := inv.hanch2
          rw [inv.hoff]
          omega
      case hpl =>
        left
        have : 0 < product_ids.length := by
          cases hpc : product_ids with
          | nil => exact absurd hpc hpid
          | cons a b => simp
        simp only [List.length_append, List.length_cons, List.length_nil]
        omega
      case hsi =>
        intro id hid
        have := inv.hsi id hid
        simp only [List.length_append, List.length_map]
        omega
      case hsl =>
        rcases inv.hsl with hh | hh
        · exact .inl hh
        · rcases hh with ⟨e, he, hs⟩
          rcases List.mem_cons.mp he with hh | hh
          · subst hh
            simp [Option.isSome] at hs
          · exact .inr ⟨e, hh, hs⟩
      case hhd =>
        intro hc
        exact absurd hc (by simp)
      case hrest =>
        intro e he
        exact inv.hrest e (by simp [he])
    | some bop =>
      cases bop with
      | Add =>
        -- flush, move the anchor, maybe open a product
        have hflok : ∀ kinds1, (if product_ids = [] then some (kinds, product_ids)
            else match kinds.get? anchor with
              | some (.Product t) =>
                some (kinds.set anchor (.Product ⟨t.ids ++ product_ids⟩), ([] : List Nat))
              | _ => none) = some (kinds1, ([] : List Nat)) →
            (kinds1.length = kinds.length ∧ kinds1.get? 0 = some (.Sum ⟨[]⟩) ∧
              (∀ p ids, treeAt kinds1 p = some ids → p ≠ 0 →
                ids.length ≠ 1 ∧ ∀ id ∈ ids, p < id ∧ id < kinds.length)) := by
          intro kinds1 hfl
          by_cases hpid : product_ids = []
          · rw [if_pos hpid] at hfl
            injection hfl with hfl
            injection hfl with hfl _
            subst hfl
            refine ⟨rfl, inv.hk0, ?_⟩
            intro p ids hp hp0
            exact inv.htree p ids hp hp0 fun hne => absurd hpid hne
          · rw [if_neg hpid, inv.hpa hpid] at hfl
            injection hfl with hfl
            injection hfl with hfl _
            have hpl1 : product_ids.length ≠ 1 := by
              rcases inv.hpl with hh | hh
              · exact hh
              · rcases hh with ⟨e, he, hop⟩
                injection he with he
                rw [← he] at hop
                cases hop
            rw [← hfl]
            refine ⟨by simp, ?_, ?_⟩
            · rw [get?_set_preserved kinds anchor 0 _ (by have := inv.hanch1; omega)]
              exact inv.hk0
            · intro p ids hp hp0
              rw [treeAt_set kinds anchor _ p inv.hanch2] at hp
              by_cases hpa : p = anchor
              · rw [if_pos hpa] at hp
                simp only [RexKind.kindTree, Option.some.injEq, List.nil_append] at hp
                rw [← hp]
                refine ⟨hpl1, ?_⟩
                intro id hid
                have := inv.hpi id hid
                omega
              · rw [if_neg hpa] at hp
                exact inv.htree p ids hp hp0 fun _ => hpa
        have hanchors : 1 ≤ offset ∧ anchor < kinds.length := by
          constructor
          · rw [inv.hoff]
            omega
          · exact inv.hanch2
        cases hfl : (if product_ids = [] then some (kinds, product_ids)
            else match kinds.get? anchor with
              | some (.Product t) =>
                some (kinds.set anchor (.Product ⟨t.ids ++ product_ids⟩), ([] : List Nat))
              | _ => none) with
        | none =>
          rw [withMoreGo_add_flnone kinds sum_ids product_ids anchor offset rex rest hfl] at h
          cases h
        | some kp =>
          have hsnd : kp.2 = [] := by
            by_cases hpid : product_ids = []
            · rw [if_pos hpid] at hfl
              injection hfl with hfl
              rw [← hfl, hpid]
            · rw [if_neg hpid] at hfl
              cases hka : kinds.get? anchor with
              | none => rw [hka] at hfl; cases hfl
              | some kk =>
                rw [hka] at hfl
                cases kk with
                | Product t => injection hfl with hfl; rw [← hfl]
                | Thin tar => cases hfl
                | Fat far => cases hfl
                | Instance i => cases hfl
                | Sum t => cases hfl
          obtain ⟨kinds1, pids1⟩ := kp
          simp only at hsnd
          subst hsnd
          have hk1 := hflok kinds1 hfl
          cases hc : (match rest.head? with
            | some e => e.1.isNone
            | none => false) with
          | true =>
            rw [withMoreGo_add_followed kinds sum_ids product_ids anchor offset rex rest
              kinds1 hfl hc] at h
            refine ih _ _ _ _ _ out ?_ h
            have hlen1 : (kinds1 ++ [RexKind.Product ⟨[]⟩]).length = kinds.length + 1 := by
              simp [hk1.1]
            constructor
            case hoff =>
              have hoffe := inv.hoff
              simp only [List.length_append, List.length_map, List.length_cons,
                List.length_nil, hk1.1]
              omega
            case hanch1 => exact hanchors.1
            case hanch2 =>
              have hoffe := inv.hoff
              simp only [List.length_append, List.length_map, List.length_cons,
                List.length_nil, hk1.1]
              omega
            case hk0 =>
              rw [get?_append_left' _ _ 0 (by simp only [List.length_append, hk1.1]; omega)]
              rw [get?_append_left' _ _ 0 (by rw [hk1.1]; omega)]
              exact hk1.2.1
            case htree =>
              have hshift : (offset + 1) = (kinds1 ++ [RexKind.Product ⟨[]⟩]).length := by
                rw [hlen1, inv.hoff]
              refine htree_append _ rex.kinds (offset + 1) [offset + 1] offset hshift
                hrx.1 hrx.2.1 ?_
              intro p ids hp hp0 hpane
              rw [treeAt_append] at hp
              by_cases hpk : p < kinds1.length
              · rw [if_pos hpk] at hp
                have := hk1.2.2 p ids hp hp0
                refine ⟨this.1, ?_⟩
                intro id hid
                have h2 := this.2 id hid
                rw [hlen1]
                omega
              · rw [if_neg hpk] at hp
                -- the only remaining position is the fresh placeholder, which is exempt
                exfalso
                have hplen : p - kinds1.length < 1 := by
                  by_contra hcc
                  rw [treeAt_eq_none_of_le [RexKind.Product ⟨[]⟩] _ (by simp; omega)] at hp
                  cases hp
                have hpeq : p = kinds1.length := by omega
                have : p = offset := by
                  rw [hpeq, hk1.1, inv.hoff]
                exact hpane (by simp) this
            case hpa =>
              intro _
              rw [get?_append_left' _ _ offset (by rw [hlen1, inv.hoff]; omega)]
              have : offset = kinds1.length := by rw [hk1.1, inv.hoff]
              rw [this]
              rw [List.get?_append_right (by omega)]
              simp
            case hpi =>
              intro id hid
              simp only [List.mem_singleton] at hid
              subst hid
              constructor
              · omega
              · simp only [List.length_append, List.length_map, hlen1]
                rw [inv.hoff]
                omega
            case hpl =>
              rcases hhc : rest.head? with _ | ⟨e⟩
              · rw [hhc] at hc
                cases hc
              · right
                refine ⟨e, rfl, ?_⟩
                rw [hhc] at hc
                exact Option.isNone_iff_eq_none.mp hc
            case hsi =>
              intro id hid
              rcases List.mem_append.mp hid with hh | hh
              · have := inv.hsi id hh
                simp only [List.length_append, List.length_map, hlen1]
                omega
              · simp at hh
                subst hh
                have := inv.hanch2
                have := inv.hanch1
                simp only [List.length_append, List.length_map, hlen1]
                omega
            case hsl => exact .inl (by simp)
            case hhd => intro hcc; exact absurd hcc (by simp)
            case hrest => intro e he; exact inv.hrest e (by simp [he])
          | false =>
            rw [withMoreGo_add_unfollowed kinds sum_ids product_ids anchor offset rex rest
              kinds1 hfl hc] at h
            refine ih _ _ _ _ _ out ?_ h
            constructor
            case hoff =>
              simp only [List.length_append, List.length_map, hk1.1]
              rw [inv.hoff]
            case hanch1 => exact hanchors.1
            case hanch2 =>
              simp only [List.length_append, List.length_map, hk1.1]
              rw [inv.hoff]
              omega
            case hk0 =>
              rw [get?_append_left' _ _ 0 (by rw [hk1.1]; omega)]
              exact hk1.2.1
            case htree =>
              have hshift : offset = kinds1.length := by rw [hk1.1, inv.hoff]
              refine htree_append kinds1 rex.kinds offset [] offset hshift
                hrx.1 hrx.2.1 ?_
              intro p ids hp hp0 _
              have := hk1.2.2 p ids hp hp0
              refine ⟨this.1, ?_⟩
              intro id hid
              have h2 := this.2 id hid
              rw [hk1.1]
              omega
            case hpa => intro hcc; exact absurd rfl hcc
            case hpi => intro id hid; cases hid
            case hpl => exact .inl (by simp)
            case hsi =>
              intro id hid
              rcases List.mem_append.mp hid with hh | hh
              · have := inv.hsi id hh
                simp only [List.length_append, List.length_map, hk1.1]
                omega
              · simp at hh
                subst hh
                have := inv.hanch2
                have := inv.hanch1
                simp only [List.length_append, List.length_map, hk1.1]
                omega
            case hsl => exact .inl (by simp)
            case hhd =>
              intro _ e he
              rw [he] at hc
              have hc' : e.1.isNone = false := hc
              cases hop : e.1 with
              | none => rw [hop] at hc'; cases hc'
              | some b => rfl
            case hrest => intro e he; exact inv.hrest e (by simp [he])
      | ThinTx => rw [withMoreGo_bad_op _ _ _ _ _ _ _ _ (by intro hcc; cases hcc)] at h; cases h
      | ThinRx => rw [withMoreGo_bad_op _ _ _ _ _ _ _ _ (by intro hcc; cases hcc)] at h; cases h
      | FatTx => rw [withMoreGo_bad_op _ _ _ _ _ _ _ _ (by intro hcc; cases hcc)] at h; cases h
      | FatRx => rw [withMoreGo_bad_op _ _ _ _ _ _ _ _ (by intro hcc; cases hcc)] at h; cases h
      | FatDx => rw [withMoreGo_bad_op _ _ _ _ _ _ _ _ (by intro hcc; cases hcc)] at h; cases h

/-- Invariant of the all-product loop of `with_more`. -/
theorem withMoreProductGo_inv :
    ∀ (rest : List (Option BinOp × Rex)) (kinds : List RexKind) (ids : List Nat)
      (offset : Nat),
      offset = kinds.length →
      0 < kinds.length →
      (∀ p idsx, treeAt kinds p = some idsx → p ≠ 0 →
        idsx.length ≠ 1 ∧ ∀ id ∈ idsx, p < id ∧ id < kinds.length) →
      (∀ id ∈ ids, 0 < id ∧ id < kinds.length) →
      (∀ e ∈ rest, TreesBoundP e.2.kinds ∧ NoSingleP e.2.kinds ∧ e.2.kinds ≠ []) →
      (withMoreProductGo kinds ids offset rest).2.length = ids.length + rest.length ∧
      kinds.length ≤ (withMoreProductGo kinds ids offset rest).1.length ∧
      (∀ p idsx, treeAt (withMoreProductGo kinds ids offset rest).1 p = some idsx → p ≠ 0 →
        idsx.length ≠ 1 ∧
          ∀ id ∈ idsx, p < id ∧ id < (withMoreProductGo kinds ids offset rest).1.length) ∧
      (∀ id ∈ (withMoreProductGo kinds ids offset rest).2,
        0 < id ∧ id < (withMoreProductGo kinds ids offset rest).1.length) := by
  intro rest
  induction rest with
  | nil =>
    intro kinds ids offset hoff h0 ht hids _
    exact ⟨by simp [withMoreProductGo], by simp [withMoreProductGo],
      fun p idsx hp hp0 => ht p idsx hp hp0, hids⟩
  | cons e rest ih =>
    intro kinds ids offset hoff h0 ht hids hrest
    have hre := hrest e (by simp)
    have hrexne : 0 < e.2.kinds.length := by
      cases hrk : e.2.kinds with
      | nil => exact absurd hrk hre.2.2
      | cons a b => simp
    have hstep : withMoreProductGo kinds ids offset (e :: rest) =
        withMoreProductGo (kinds ++ e.2.kinds.map (shiftKind offset)) (ids ++ [offset])
          (offset + e.2.kinds.length) rest := rfl
    rw [hstep]
    have hlen2 : (kinds ++ e.2.kinds.map (shiftKind offset)).length =
        kinds.length + e.2.kinds.length := by simp
    have hres := ih (kinds ++ e.2.kinds.map (shiftKind offset)) (ids ++ [offset])
      (offset + e.2.kinds.length) (by rw [hlen2]; omega) (by rw [hlen2]; omega)
      (fun p idsx hp hp0 =>
        htree_append kinds e.2.kinds offset [] 0 hoff hre.1 hre.2.1
          (fun p idsx hp hp0 _ => ht p idsx hp hp0) p idsx hp hp0
          fun hc => absurd rfl hc)
      ?_ (fun x hx => hrest x (by simp [hx]))
    · refine ⟨?_, ?_, hres.2.2.1, hres.2.2.2⟩
      · rw [hres.1]
        simp only [List.length_append, List.length_cons, List.length_nil]
        omega
      · have := hres.2.1
        rw [hlen2] at this
        omega
    · intro id hid
      rcases List.mem_append.mp hid with hh | hh
      · have := hids id hh
        rw [hlen2]
        omega
      · simp at hh
        subst hh
        rw [hlen2]
        omega

/-- `with_more` preserves the child-bound and no-single-child invariants:
any successful construction from well-formed parts is well-formed. -/
theorem with_more_good (self : Rex) (rexlist : List (Option BinOp × Rex)) (out : Rex)
    (hsB : TreesBoundP self.kinds) (hsS : NoSingleP self.kinds) (hsne : self.kinds ≠ [])
    (hlist : ∀ e ∈ rexlist, TreesBoundP e.2.kinds ∧ NoSingleP e.2.kinds ∧ e.2.kinds ≠ [])
    (h : self.with_more rexlist = some out) :
    TreesBoundP out.kinds ∧ NoSingleP out.kinds := by
  have hselfpos : 0 < self.kinds.length := by
    cases hs : self.kinds with
    | nil => exact absurd hs hsne
    | cons a b => simp
  rw [Rex.with_more] at h
  by_cases hemp : rexlist = []
  · rw [if_pos hemp] at h
    injection h with h
    rw [← h]
    exact ⟨hsB, hsS⟩
  · rw [if_neg hemp] at h
    by_cases hplus : rexlist.all (fun e => e.1.isNone) = true
    · -- the all-product branch
      rw [if_pos hplus] at h
      simp only [] at h
      rw [show (append_with_offset [RexKind.Product ⟨[]⟩] self.kinds 1).1 =
          [RexKind.Product ⟨[]⟩] ++ self.kinds.map (shiftKind 1) from rfl,
        show (append_with_offset [RexKind.Product ⟨[]⟩] self.kinds 1).2 =
          1 + self.kinds.length from rfl] at h
      injection h with h
      have hinitlen : ([RexKind.Product ⟨[]⟩] ++ self.kinds.map (shiftKind 1)).length =
          1 + self.kinds.length := by
        simp only [List.length_append, List.length_map, List.length_cons, List.length_nil]
      have hprefix : ∀ (p : Nat) (idsx : List Nat),
          treeAt [RexKind.Product ⟨[]⟩] p = some idsx → p ≠ 0 →
          ([] ≠ ([] : List Nat) → p ≠ 0) →
          idsx.length ≠ 1 ∧ ∀ id ∈ idsx, p < id ∧ id < 1 := by
        intro p idsx hp hp0 _
        cases p with
        | zero => exact absurd rfl hp0
        | succ q =>
          rw [treeAt_cons_succ] at hp
          rw [treeAt_eq_none_of_le [] q (by simp)] at hp
          cases hp
      have hgo := withMoreProductGo_inv rexlist
        ([RexKind.Product ⟨[]⟩] ++ self.kinds.map (shiftKind 1)) [1] (1 + self.kinds.length)
        (by rw [hinitlen]) (by rw [hinitlen]; omega)
        (fun p idsx hp hp0 =>
          htree_append [RexKind.Product ⟨[]⟩] self.kinds 1 [] 0 rfl hsB hsS
            (fun p idsx hp hp0 _ => hprefix p idsx hp hp0 fun hc => absurd rfl hc)
              p idsx hp hp0 fun hc => absurd rfl hc)
        ?_ hlist
      · rw [← h]
        have hlistlen : 0 < rexlist.length := by
          cases hr : rexlist with
          | nil => exact absurd hr hemp
          | cons a b => simp
        refine final_set_root_good _ _ _ rfl ?_ ?_ hgo.2.2.2 hgo.2.2.1
        · have h1 := hgo.2.1
          rw [hinitlen] at h1
          omega
        · rw [hgo.1]
          simp only [List.length_cons, List.length_nil]
          omega
      · intro id hid
        simp at hid
        subst hid
        rw [hinitlen]
        omega
    · -- the Sum branch
      rw [if_neg hplus] at h
      have hwitness : ∃ e ∈ rexlist, e.1.isSome = true := by
        by_contra hc
        push_neg at hc
        refine hplus (List.all_eq_true.mpr ?_)
        intro e he
        have := hc e he
        cases hop : e.1 with
        | none => rfl
        | some b => rw [hop] at this; exact absurd rfl this
      cases hif : (match rexlist.head? with
        | some e => e.1.isNone
        | none => false) with
      | true =>
        simp only [] at h
        rw [hif] at h
        simp only [if_true] at h
        rw [show (append_with_offset [RexKind.Sum ⟨[]⟩, RexKind.Product ⟨[]⟩] self.kinds 2).1 =
            [RexKind.Sum ⟨[]⟩, RexKind.Product ⟨[]⟩] ++ self.kinds.map (shiftKind 2) from rfl,
          show (append_with_offset [RexKind.Sum ⟨[]⟩, RexKind.Product ⟨[]⟩] self.kinds 2).2 =
            2 + self.kinds.length from rfl] at h
        rcases hhead : rexlist.head? with _ | ⟨e0⟩
        · rw [hhead] at hif
          cases hif
        · rw [hhead] at hif
          have he0 : e0.1 = none := Option.isNone_iff_eq_none.mp hif
          refine withMoreGo_good rexlist _ [] [2] 1 _ out
            ⟨?_, ?_, ?_, ?_, ?_, ?_, ?_, ?_, ?_, ?_, ?_, ?_⟩ h
          · simp
            omega
          · omega
          · simp
          · rfl
          · refine htree_append [RexKind.Sum ⟨[]⟩, RexKind.Product ⟨[]⟩] self.kinds 2
              [2] 1 rfl hsB hsS ?_
            intro p idsx hp hp0 hpane
            cases p with
            | zero => exact absurd rfl hp0
            | succ q =>
              cases q with
              | zero => exact absurd rfl (hpane (by simp))
              | succ qq =>
                rw [treeAt_cons_succ, treeAt_cons_succ] at hp
                rw [treeAt_eq_none_of_le [] qq (by simp)] at hp
                cases hp
          · intro _
            rfl
          · intro id hid
            simp at hid
            subst hid
            simp
            omega
          · exact .inr ⟨e0, hhead, he0⟩
          · intro id hid
            cases hid
          · exact .inr hwitness
          · intro hc
            exact absurd hc (by simp)
          · exact hlist
      | false =>
        simp only [] at h
        rw [hif] at h
        simp only [Bool.false_eq_true, if_false] at h
        rw [show (append_with_offset [RexKind.Sum ⟨[]⟩] self.kinds 1).1 =
            [RexKind.Sum ⟨[]⟩] ++ self.kinds.map (shiftKind 1) from rfl,
          show (append_with_offset [RexKind.Sum ⟨[]⟩] self.kinds 1).2 =
            1 + self.kinds.length from rfl] at h
        refine withMoreGo_good rexlist _ [] [] 1 _ out
          ⟨?_, ?_, ?_, ?_, ?_, ?_, ?_, ?_, ?_, ?_, ?_, ?_⟩ h
        · simp
          omega
        · omega
        · simp
          omega
        · rfl
        · refine htree_append [RexKind.Sum ⟨[]⟩] self.kinds 1 [] 1 rfl hsB hsS ?_
          intro p idsx hp hp0 _
          cases p with
          | zero => exact absurd rfl hp0
          | succ q =>
            rw [treeAt_cons_succ] at hp
            rw [treeAt_eq_none_of_le [] q (by simp)] at hp
            cases hp
        · intro hc
          exact absurd rfl hc
        · intro id hid
          cases hid
        · exact .inl (by simp)
        · intro id hid
          cases hid
        · exact .inr hwitness
        · intro _ e he
          rw [he] at hif
          have hif' : e.1.isNone = false := hif
          cases hop : e.1 with
          | none => rw [hop] at hif'; cases hif'
          | some b => rfl
        · exact hlist

/-! ## Remaining Bool bridges and compiler-level lemmas -/

theorem safeTreesB_iff (ks : List RexKind) : safeTreesB ks = true ↔
    ∀ k ∈ ks, ∀ ids, k.kindTree = some ids → ids ≠ [] ∧ ∀ id ∈ ids, id < ks.length := by
  rw [safeTreesB, List.all_eq_true]
  constructor
  · intro h k hk ids hids
    have := h k hk
    rw [hids] at this
    simp only [Bool.and_eq_true, List.all_eq_true, decide_eq_true_eq,
      Bool.not_eq_true', List.isEmpty_eq_false] at this
    exact ⟨this.1, this.2⟩
  · intro h k hk
    cases hids : k.kindTree with
    | none => simp
    | some ids =>
      simp only [Bool.and_eq_true, List.all_eq_true, decide_eq_true_eq,
        Bool.not_eq_true', List.isEmpty_eq_false]
      exact ⟨(h k hk ids hids).1, (h k hk ids hids).2⟩

theorem fatPartsOkB_iff (ks : List RexKind) : fatPartsOkB ks = true ↔
    ∀ k ∈ ks, ∀ far, k = .Fat far → far.parts ≠ [] := by
  rw [fatPartsOkB, List.all_eq_true]
  constructor
  · intro h k hk far hfar
    have := h k hk
    rw [hfar] at this
    simpa using this
  · intro h k hk
    cases k with
    | Fat far => simpa using h (RexKind.Fat far) hk far rfl
    | Thin tar => rfl
    | Instance inst => rfl
    | Product t => rfl
    | Sum t => rfl

theorem hasEmptyTreeB_iff (ks : List RexKind) : hasEmptyTreeB ks = true ↔
    ∃ k ∈ ks, k.kindTree = some [] := by
  rw [hasEmptyTreeB, List.any_eq_true]
  simp

theorem wellFormedB_iff (r : Rex) : wellFormedB r = true ↔
    TreesBoundP r.kinds ∧ NoSingleP r.kinds ∧ r.kinds ≠ [] := by
  rw [wellFormedB]
  simp only [Bool.and_eq_true, Bool.not_eq_true', List.isEmpty_eq_false]
  rw [treesBoundB_iff, noSingleB_iff]
  constructor
  · intro h
    exact ⟨h.1.1, h.1.2, h.2⟩
  · intro h
    exact ⟨⟨h.1, h.2.1⟩, h.2.2⟩

/-- `get_compiled_content` can never fail with `FatLeak`: it normalizes with
`fit_clone` first, so the `Fat` case of the fold is dead code. -/
theorem get_compiled_content_not_fatLeak (r : Rex) (ctx : Context) :
    notFatLeakB (r.get_compiled_content ctx) = true := by
  rw [Rex.get_compiled_content]
  cases hfc : r.fit_clone with
  | none => rfl
  | some rex =>
    show notFatLeakB
      (if rex.kinds = [] then some (.ok (PartialContent.new ctx, ctx))
       else
         match buildParents ctx 0 (List.replicate rex.kinds.length none)
             (List.replicate rex.kinds.length 0) rex.kinds with
         | none => none
         | some (.error e) => some (.error e)
         | some (.ok mp) =>
           compileDown rex.kinds mp.2 (rex.kinds.length - 1) mp.1 ctx) = true
    by_cases hemp : rex.kinds = []
    · rw [if_pos hemp]
      rfl
    · rw [if_neg hemp]
      cases hbp : buildParents ctx 0 (List.replicate rex.kinds.length none)
          (List.replicate rex.kinds.length 0) rex.kinds with
      | none => rfl
      | some res =>
        cases res with
        | error e =>
          have he := buildParents_error rex.kinds ctx 0 _ _ e hbp
          subst he
          rfl
        | ok mp =>
          show notFatLeakB
            (compileDown rex.kinds mp.2 (rex.kinds.length - 1) mp.1 ctx) = true
          have hnf := fitClone_noFatP r rex hfc
          have hne := compileDown_not_fatLeak rex.kinds mp.2 hnf
            (rex.kinds.length - 1) mp.1 ctx
          cases hcd : compileDown rex.kinds mp.2 (rex.kinds.length - 1) mp.1 ctx with
          | none => rfl
          | some ex =>
            cases ex with
            | ok v => rfl
            | error e =>
              cases e with
              | InvalidAST => rfl
              | FatLeak => exact absurd hcd hne
              | UnexpectedDependency n => rfl

/-- Compiling a Rex equals compiling its normal form: `get_compiled_content`
itself begins with `fit_clone`, and on positive-id input `fit_clone` is
idempotent. -/
theorem get_compiled_content_fit_clone_eq (r r' : Rex) (ctx : Context)
    (hres : r.check_dependencies ctx = none)
    (hpos : allPosB r.kinds = true)
    (hfc : r.fit_clone = some r') :
    r.get_compiled_content ctx = r'.get_compiled_content ctx := by
  have hfc' : r'.fit_clone = some r' :=
    fitClone_idem r r' ((allPosB_iff r.kinds).mp hpos) hfc
  rw [Rex.get_compiled_content, Rex.get_compiled_content, hfc, hfc']

/-! ## The claims -/

/-- C1: the spec says a Rex containing a `Fat` kind makes
`get_compiled_content` fail with `FatLeak` because the compiler "does not
re-normalize".  In the code (rex.rs line 176) `get_compiled_content` calls
`fit_clone` on itself first, so `Fat` kinds are eliminated before the fold
and the `FatLeak` arm is dead: no input at all can produce `FatLeak`. -/
theorem c1_compiler_never_fat_leak (r : Rex) (ctx : Context) :
    notFatLeakB (r.get_compiled_content ctx) = true :=
  get_compiled_content_not_fatLeak r ctx

/-- C1 counterexample: the one-node Rex holding the fat arrow `a => b`
contains a `Fat` kind, yet `get_compiled_content` succeeds with `Ok` —
the compiler re-normalizes rather than failing with `FatLeak`. -/
theorem c1_fat_rex_compiles_ok :
    hasFatB (Rex.mk [.Fat ⟨[⟨⟨[["a"]]⟩, ⟨[["b"]]⟩⟩]⟩]).kinds = true ∧
    isOkResult ((Rex.mk [.Fat ⟨[⟨⟨[["a"]]⟩, ⟨[["b"]]⟩⟩]⟩]).get_compiled_content
      ⟨[], []⟩) = true := by
  decide

/-- C1 witness: the never-`FatLeak` theorem evaluated at the `a => b` Rex
and the empty context. -/
theorem c1_compiler_never_fat_leak_witness :
    notFatLeakB ((Rex.mk [.Fat ⟨[⟨⟨[["a"]]⟩, ⟨[["b"]]⟩⟩]⟩]).get_compiled_content
      ⟨[], []⟩) = true :=
  c1_compiler_never_fat_leak (Rex.mk [.Fat ⟨[⟨⟨[["a"]]⟩, ⟨[["b"]]⟩⟩]⟩]) ⟨[], []⟩

/-- C2 (amended): compiling a Rex equals compiling its `fit_clone` under the
same context, provided the context resolves every instance, every child id in
the input is strictly positive, and `fit_clone` succeeds.  The positivity
premise is what makes `fit_clone` a fixpoint on its own output; without it the
two compilations can differ (see the counterexample). -/
theorem c2_compile_eq_compile_normalized (r r' : Rex) (ctx : Context)
    (hres : r.check_dependencies ctx = none)
    (hpos : allPosB r.kinds = true)
    (hfc : r.fit_clone = some r') :
    r.get_compiled_content ctx = r'.get_compiled_content ctx :=
  get_compiled_content_fit_clone_eq r r' ctx hres hpos hfc

/-- C2 counterexample: a Rex whose root `Thin` is followed by `Sum` nodes with
a zero child id has no instances (so every context resolves them all), yet
compiling it returns `InvalidAST` while compiling its `fit_clone` — whose
placeholder filling bumped the id 0 to a dangling 3 — panics. -/
theorem c2_compile_differs_from_normalized :
    (Rex.mk [.Thin ThinArrowRule.new, .Sum ⟨[1]⟩, .Sum ⟨[0]⟩]).check_dependencies
      ⟨[], []⟩ = none ∧
    (Rex.mk [.Thin ThinArrowRule.new, .Sum ⟨[1]⟩, .Sum ⟨[0]⟩]).fit_clone =
      some (Rex.mk [.Thin ThinArrowRule.new, .Sum ⟨[1]⟩, .Sum ⟨[3]⟩]) ∧
    decide ((Rex.mk [.Thin ThinArrowRule.new, .Sum ⟨[1]⟩, .Sum ⟨[0]⟩]).get_compiled_content
        ⟨[], []⟩ =
      (Rex.mk [.Thin ThinArrowRule.new, .Sum ⟨[1]⟩, .Sum ⟨[3]⟩]).get_compiled_content
        ⟨[], []⟩) = false := by
  decide

/-- C2 witness: the amended equivalence evaluated at the `a => b` Rex, its
normal form, and the empty context. -/
theorem c2_compile_eq_compile_normalized_witness :
    ((Rex.mk [.Fat ⟨[⟨⟨[["a"]]⟩, ⟨[["b"]]⟩⟩]⟩]).check_dependencies ⟨[], []⟩ = none ∧
     allPosB (Rex.mk [.Fat ⟨[⟨⟨[["a"]]⟩, ⟨[["b"]]⟩⟩]⟩]).kinds = true ∧
     (Rex.mk [.Fat ⟨[⟨⟨[["a"]]⟩, ⟨[["b"]]⟩⟩]⟩]).fit_clone =
       some (Rex.mk [.Sum ⟨[1, 2]⟩,
         .Thin ⟨⟨["a"]⟩, ⟨[]⟩, ⟨[["b"]]⟩⟩,
         .Thin ⟨⟨["b"]⟩, ⟨[["a"]]⟩, ⟨[]⟩⟩])) ∧
    (Rex.mk [.Fat ⟨[⟨⟨[["a"]]⟩, ⟨[["b"]]⟩⟩]⟩]).get_compiled_content ⟨[], []⟩ =
      (Rex.mk [.Sum ⟨[1, 2]⟩,
        .Thin ⟨⟨["a"]⟩, ⟨[]⟩, ⟨[["b"]]⟩⟩,
        .Thin ⟨⟨["b"]⟩, ⟨[["a"]]⟩, ⟨[]⟩⟩]).get_compiled_content ⟨[], []⟩ :=
  ⟨⟨by decide, by decide, by decide⟩,
   c2_compile_eq_compile_normalized (Rex.mk [.Fat ⟨[⟨⟨[["a"]]⟩, ⟨[["b"]]⟩⟩]⟩])
     (Rex.mk [.Sum ⟨[1, 2]⟩,
       .Thin ⟨⟨["a"]⟩, ⟨[]⟩, ⟨[["b"]]⟩⟩,
       .Thin ⟨⟨["b"]⟩, ⟨[["a"]]⟩, ⟨[]⟩⟩]) ⟨[], []⟩ (by decide) (by decide) (by decide)⟩

/-- C3: whenever `fit_clone` returns a Rex, that Rex contains no `Fat` kind
anywhere in its kinds vector — the first pass expands every `Fat` into a
`Sum` over `Thin` rules and the second pass introduces no new kinds. -/
theorem c3_fit_clone_no_fat (r r' : Rex) (h : r.fit_clone = some r') :
    noFatB r'.kinds = true :=
  (noFatB_iff r'.kinds).mpr (fitClone_noFatP r r' h)

/-- C3 witness: the no-`Fat` theorem evaluated on the `a => b` Rex and its
`fit_clone` output. -/
theorem c3_fit_clone_no_fat_witness :
    (Rex.mk [.Fat ⟨[⟨⟨[["a"]]⟩, ⟨[["b"]]⟩⟩]⟩]).fit_clone =
      some (Rex.mk [.Sum ⟨[1, 2]⟩,
        .Thin ⟨⟨["a"]⟩, ⟨[]⟩, ⟨[["b"]]⟩⟩,
        .Thin ⟨⟨["b"]⟩, ⟨[["a"]]⟩, ⟨[]⟩⟩]) ∧
    noFatB (Rex.mk [.Sum ⟨[1, 2]⟩,
      .Thin ⟨⟨["a"]⟩, ⟨[]⟩, ⟨[["b"]]⟩⟩,
      .Thin ⟨⟨["b"]⟩, ⟨[["a"]]⟩, ⟨[]⟩⟩]).kinds = true :=
  ⟨by decide, c3_fit_clone_no_fat (Rex.mk [.Fat ⟨[⟨⟨[["a"]]⟩, ⟨[["b"]]⟩⟩]⟩])
     (Rex.mk [.Sum ⟨[1, 2]⟩,
       .Thin ⟨⟨["a"]⟩, ⟨[]⟩, ⟨[["b"]]⟩⟩,
       .Thin ⟨⟨["b"]⟩, ⟨[["a"]]⟩, ⟨[]⟩⟩]) (by decide)⟩

/-- C4 (amended): `fit_clone` is idempotent on every Rex whose Sum/Product
child ids are all strictly positive: a successful `fit_clone` is then a
fixpoint of `fit_clone`.  Unrestricted idempotence fails (see the
counterexample): a child id 0 is rewritten to a dangling id by the
placeholder-filling `*id = new_id + 1` of pass 2. -/
theorem c4_fit_clone_idempotent_on_pos (r r' : Rex)
    (hpos : allPosB r.kinds = true) (h : r.fit_clone = some r') :
    r'.fit_clone = some r' :=
  fitClone_idem r r' ((allPosB_iff r.kinds).mp hpos) h

/-- C4 counterexample: on `[Sum{0}]` one `fit_clone` yields `[Sum{1}]` (the
zero id is treated as a placeholder and bumped), and a second `fit_clone`
panics on the now out-of-bounds id — `fit_clone (fit_clone r)` is not
`fit_clone r`. -/
theorem c4_fit_clone_not_idempotent :
    (Rex.mk [.Sum ⟨[0]⟩]).fit_clone = some (Rex.mk [.Sum ⟨[1]⟩]) ∧
    (Rex.mk [.Sum ⟨[1]⟩]).fit_clone = none := by
  decide

/-- C4 witness: idempotence evaluated at the `a => b` Rex. -/
theorem c4_fit_clone_idempotent_on_pos_witness :
    (allPosB (Rex.mk [.Fat ⟨[⟨⟨[["a"]]⟩, ⟨[["b"]]⟩⟩]⟩]).kinds = true ∧
     (Rex.mk [.Fat ⟨[⟨⟨[["a"]]⟩, ⟨[["b"]]⟩⟩]⟩]).fit_clone =
       some (Rex.mk [.Sum ⟨[1, 2]⟩,
         .Thin ⟨⟨["a"]⟩, ⟨[]⟩, ⟨[["b"]]⟩⟩,
         .Thin ⟨⟨["b"]⟩, ⟨[["a"]]⟩, ⟨[]⟩⟩])) ∧
    (Rex.mk [.Sum ⟨[1, 2]⟩,
      .Thin ⟨⟨["a"]⟩, ⟨[]⟩, ⟨[["b"]]⟩⟩,
      .Thin ⟨⟨["b"]⟩, ⟨[["a"]]⟩, ⟨[]⟩⟩]).fit_clone =
      some (Rex.mk [.Sum ⟨[1, 2]⟩,
        .Thin ⟨⟨["a"]⟩, ⟨[]⟩, ⟨[["b"]]⟩⟩,
        .Thin ⟨⟨["b"]⟩, ⟨[["a"]]⟩, ⟨[]⟩⟩]) :=
  ⟨⟨by decide, by decide⟩,
   c4_fit_clone_idempotent_on_pos (Rex.mk [.Fat ⟨[⟨⟨[["a"]]⟩, ⟨[["b"]]⟩⟩]⟩])
     (Rex.mk [.Sum ⟨[1, 2]⟩,
       .Thin ⟨⟨["a"]⟩, ⟨[]⟩, ⟨[["b"]]⟩⟩,
       .Thin ⟨⟨["b"]⟩, ⟨[["a"]]⟩, ⟨[]⟩⟩]) (by decide) (by decide)⟩

/-- C5 (amended): the construction path does keep the invariant — a Rex built
by `with_more` from a well-formed base and well-formed parts has no Sum or
Product node with exactly one child.  The "including after fit_clone" part of
the claim fails (see the counterexample): `fit_clone` itself can mint a
single-child `Sum`. -/
theorem c5_with_more_no_single_child (self : Rex)
    (rexlist : List (Option BinOp × Rex)) (out : Rex)
    (hself : wellFormedB self = true)
    (hlist : rexlist.all (fun e => wellFormedB e.2) = true)
    (h : self.with_more rexlist = some out) :
    noSingleB out.kinds = true := by
  rw [noSingleB_iff]
  rw [wellFormedB_iff] at hself
  have hlist' : ∀ e ∈ rexlist,
      TreesBoundP e.2.kinds ∧ NoSingleP e.2.kinds ∧ e.2.kinds ≠ [] := by
    intro e he
    exact (wellFormedB_iff e.2).mp (List.all_eq_true.mp hlist e he)
  exact (with_more_good self rexlist out hself.1 hself.2.1 hself.2.2 hlist' h).2

/-- C5 counterexample: the fat arrow `a => a` (built by `from_parts`) FITs
into a single thin rule, so `fit_clone` wraps it in a `Sum` with exactly one
child — the single-child-free invariant does not survive `fit_clone`. -/
theorem c5_fit_clone_single_child_sum :
    FatArrowRule.from_parts ⟨[["a"]]⟩ [(.FatTx, ⟨[["a"]]⟩)] =
      some ⟨[⟨⟨[["a"]]⟩, ⟨[["a"]]⟩⟩]⟩ ∧
    (Rex.mk [.Fat ⟨[⟨⟨[["a"]]⟩, ⟨[["a"]]⟩⟩]⟩]).fit_clone =
      some (Rex.mk [.Sum ⟨[1]⟩, .Thin ⟨⟨["a"]⟩, ⟨[["a"]]⟩, ⟨[["a"]]⟩⟩]) ∧
    noSingleB [RexKind.Sum ⟨[1]⟩, .Thin ⟨⟨["a"]⟩, ⟨[["a"]]⟩, ⟨[["a"]]⟩⟩] = false := by
  decide

/-- C5 witness: the single-child-free construction theorem evaluated on a
product of two one-rule rexes. -/
theorem c5_with_more_no_single_child_witness :
    (wellFormedB (Rex.mk [.Thin ThinArrowRule.new]) = true ∧
     ([((none : Option BinOp), Rex.mk [.Thin ThinArrowRule.new])].all
       (fun e => wellFormedB e.2)) = true ∧
     (Rex.mk [.Thin ThinArrowRule.new]).with_more
        [((none : Option BinOp), Rex.mk [.Thin ThinArrowRule.new])] =
       some (Rex.mk [.Product ⟨[1, 2]⟩, .Thin ThinArrowRule.new,
         .Thin ThinArrowRule.new])) ∧
    noSingleB (Rex.mk [.Product ⟨[1, 2]⟩, .Thin ThinArrowRule.new,
      .Thin ThinArrowRule.new]).kinds = true :=
  ⟨⟨by decide, by decide, by decide⟩,
   c5_with_more_no_single_child (Rex.mk [.Thin ThinArrowRule.new])
     [((none : Option BinOp), Rex.mk [.Thin ThinArrowRule.new])]
     (Rex.mk [.Product ⟨[1, 2]⟩, .Thin ThinArrowRule.new, .Thin ThinArrowRule.new])
     (by decide) (by decide) (by decide)⟩

/-- C6: child indices are forward-only and in bounds — a Rex built by
`with_more` from well-formed inputs, and the output of a successful
`fit_clone` on forward-edged input, both satisfy: every id in every `RexTree`
is strictly greater than the owning node's index and strictly less than
`kinds.length`. -/
theorem c6_forward_edges (self : Rex) (rexlist : List (Option BinOp × Rex))
    (out : Rex) (r r' : Rex)
    (hself : wellFormedB self = true)
    (hlist : rexlist.all (fun e => wellFormedB e.2) = true)
    (h1 : self.with_more rexlist = some out)
    (hb : treesBoundB r.kinds = true)
    (h2 : r.fit_clone = some r') :
    treesBoundB out.kinds = true ∧ treesBoundB r'.kinds = true := by
  constructor
  · rw [treesBoundB_iff]
    rw [wellFormedB_iff] at hself
    have hlist' : ∀ e ∈ rexlist,
        TreesBoundP e.2.kinds ∧ NoSingleP e.2.kinds ∧ e.2.kinds ≠ [] := by
      intro e he
      exact (wellFormedB_iff e.2).mp (List.all_eq_true.mp hlist e he)
    exact (with_more_good self rexlist out hself.1 hself.2.1 hself.2.2 hlist' h1).1
  · rw [treesBoundB_iff]
    exact fitClone_forwardP r r' ((treesBoundB_iff r.kinds).mp hb) h2

/-- C6 witness: the forward-edge theorem evaluated on a concrete `with_more`
product and the `a => b` `fit_clone`. -/
theorem c6_forward_edges_witness :
    (wellFormedB (Rex.mk [.Thin ThinArrowRule.new]) = true ∧
     ([((none : Option BinOp), Rex.mk [.Thin ThinArrowRule.new])].all
       (fun e => wellFormedB e.2)) = true ∧
     (Rex.mk [.Thin ThinArrowRule.new]).with_more
        [((none : Option BinOp), Rex.mk [.Thin ThinArrowRule.new])] =
       some (Rex.mk [.Product ⟨[1, 2]⟩, .Thin ThinArrowRule.new,
         .Thin ThinArrowRule.new]) ∧
     treesBoundB (Rex.mk [.Fat ⟨[⟨⟨[["a"]]⟩, ⟨[["b"]]⟩⟩]⟩]).kinds = true ∧
     (Rex.mk [.Fat ⟨[⟨⟨[["a"]]⟩, ⟨[["b"]]⟩⟩]⟩]).fit_clone =
       some (Rex.mk [.Sum ⟨[1, 2]⟩,
         .Thin ⟨⟨["a"]⟩, ⟨[]⟩, ⟨[["b"]]⟩⟩,
         .Thin ⟨⟨["b"]⟩, ⟨[["a"]]⟩, ⟨[]⟩⟩])) ∧
    (treesBoundB (Rex.mk [.Product ⟨[1, 2]⟩, .Thin ThinArrowRule.new,
       .Thin ThinArrowRule.new]).kinds = true ∧
     treesBoundB (Rex.mk [.Sum ⟨[1, 2]⟩,
       .Thin ⟨⟨["a"]⟩, ⟨[]⟩, ⟨[["b"]]⟩⟩,
       .Thin ⟨⟨["b"]⟩, ⟨[["a"]]⟩, ⟨[]⟩⟩]).kinds = true) :=
  ⟨⟨by decide, by decide, by decide, by decide, by decide⟩,
   c6_forward_edges (Rex.mk [.Thin ThinArrowRule.new])
     [((none : Option BinOp), Rex.mk [.Thin ThinArrowRule.new])]
     (Rex.mk [.Product ⟨[1, 2]⟩, .Thin ThinArrowRule.new, .Thin ThinArrowRule.new])
     (Rex.mk [.Fat ⟨[⟨⟨[["a"]]⟩, ⟨[["b"]]⟩⟩]⟩])
     (Rex.mk [.Sum ⟨[1, 2]⟩,
       .Thin ⟨⟨["a"]⟩, ⟨[]⟩, ⟨[["b"]]⟩⟩,
       .Thin ⟨⟨["b"]⟩, ⟨[["a"]]⟩, ⟨[]⟩⟩])
     (by decide) (by decide) (by decide) (by decide) (by decide)⟩

/-- C7: the fat-arrow chain `a => b => c` — `from_parts` with head `a` and
tail `[(FatTx, b), (FatTx, c)]` — normalizes to exactly the four kinds
`[Sum{1,2,3}, Thin{[a],∅,b}, Thin{[b],a,c}, Thin{[c],b,∅}]`; the middle rule
is FIT Phase 4's pairing of the rx and tx halves over the node list `[b]`. -/
theorem c7_fat_chain_normal_form :
    FatArrowRule.from_parts ⟨[["a"]]⟩ [(.FatTx, ⟨[["b"]]⟩), (.FatTx, ⟨[["c"]]⟩)] =
      some ⟨[⟨⟨[["a"]]⟩, ⟨[["b"]]⟩⟩, ⟨⟨[["b"]]⟩, ⟨[["c"]]⟩⟩]⟩ ∧
    (Rex.mk [.Fat ⟨[⟨⟨[["a"]]⟩, ⟨[["b"]]⟩⟩, ⟨⟨[["b"]]⟩, ⟨[["c"]]⟩⟩]⟩]).fit_clone =
      some (Rex.mk [.Sum ⟨[1, 2, 3]⟩,
        .Thin ⟨⟨["a"]⟩, ⟨[]⟩, ⟨[["b"]]⟩⟩,
        .Thin ⟨⟨["b"]⟩, ⟨[["a"]]⟩, ⟨[["c"]]⟩⟩,
        .Thin ⟨⟨["c"]⟩, ⟨[["b"]]⟩, ⟨[]⟩⟩]) := by
  decide

/-- C9 (amended): `fit_clone` returns without panicking when every
Sum/Product child list is non-empty and in bounds, every child id is strictly
positive, and every `Fat` node has a non-empty parts list; and it panics on
any Rex holding a Sum or Product node with an empty child list.  The claim's
own precondition is too weak: positivity and non-empty `Fat` parts are also
needed (see the counterexample). -/
theorem c9_fit_clone_panic_freedom (r s : Rex)
    (hsafe : safeTreesB r.kinds = true)
    (hpos : allPosB r.kinds = true)
    (hfat : fatPartsOkB r.kinds = true)
    (hemp : hasEmptyTreeB s.kinds = true) :
    r.fit_clone.isSome = true ∧ s.fit_clone = none := by
  constructor
  · exact fitClone_isSome_of r ((safeTreesB_iff r.kinds).mp hsafe)
      ((allPosB_iff r.kinds).mp hpos) ((fatPartsOkB_iff r.kinds).mp hfat)
  · exact fitClone_none_of_empty_tree s ((hasEmptyTreeB_iff s.kinds).mp hemp)

/-- C9 counterexample: `[Fat []]` has no Sum or Product node at all — the
claim's precondition holds vacuously — yet `fit_clone` panics: FIT of an
empty parts list yields no thin rules, and the empty `Sum` placeholder built
over them is rejected by pass 2. -/
theorem c9_safe_trees_still_panic :
    safeTreesB [RexKind.Fat ⟨[]⟩] = true ∧
    allPosB [RexKind.Fat ⟨[]⟩] = true ∧
    (Rex.mk [RexKind.Fat ⟨[]⟩]).fit_clone = none := by
  decide

/-- C9 witness: panic freedom at the `a => b` Rex, panic at `[Sum {}]`. -/
theorem c9_fit_clone_panic_freedom_witness :
    (safeTreesB (Rex.mk [.Fat ⟨[⟨⟨[["a"]]⟩, ⟨[["b"]]⟩⟩]⟩]).kinds = true ∧
     allPosB (Rex.mk [.Fat ⟨[⟨⟨[["a"]]⟩, ⟨[["b"]]⟩⟩]⟩]).kinds = true ∧
     fatPartsOkB (Rex.mk [.Fat ⟨[⟨⟨[["a"]]⟩, ⟨[["b"]]⟩⟩]⟩]).kinds = true ∧
     hasEmptyTreeB (Rex.mk [RexKind.Sum ⟨[]⟩]).kinds = true) ∧
    ((Rex.mk [.Fat ⟨[⟨⟨[["a"]]⟩, ⟨[["b"]]⟩⟩]⟩]).fit_clone.isSome = true ∧
     (Rex.mk [RexKind.Sum ⟨[]⟩]).fit_clone = none) :=
  ⟨⟨by decide, by decide, by decide, by decide⟩,
   c9_fit_clone_panic_freedom (Rex.mk [.Fat ⟨[⟨⟨[["a"]]⟩, ⟨[["b"]]⟩⟩]⟩])
     (Rex.mk [RexKind.Sum ⟨[]⟩]) (by decide) (by decide) (by decide) (by decide)⟩

/-- C10: `get_compiled_content` on a Rex with an empty kinds vector returns
`Ok` with a fresh empty `PartialContent` and the untouched context, whatever
the context holds — the empty slab short-circuits before the parent scan. -/
theorem c10_empty_rex_compiles_empty (ctx : Context) :
    (Rex.mk []).get_compiled_content ctx = some (.ok (PartialContent.new ctx, ctx)) :=
  rfl

end Cesar
